import Mathlib

/-!
Verification of the clustering / network-generation core of the leadoptmap
repository (contribute/graph.py) against its natural-language specification.

Molecule and substructure identifiers are opaque strings in the source; they
are modelled as natural numbers.  Similarity scores are Python floats computed
by an external rule; they are modelled as rationals.  The external knowledge
store (KBASE) and the MCS module enter only through `mcs.get_parent_ids` and
the `partial_ring` lookup; both are modelled as an environment of functions.
A Python exception is modelled as `Option.none` propagating through the
computation.  The external graph library (networkx) is modelled by
deterministic list-based implementations of the primitives the source uses:
adjacency with attribute overwrite (`add_edge`), connected components,
Kruskal minimum spanning edges, and edge boundaries.
-/

namespace LeadOpt

/-- Edge record of the molecule graph: an unordered pair of node ids together
with the attributes deposited by `create` and by the cluster connector in
contribute/graph.py (`similarity`, `mcs_id`, `partial_ring`, `boundary`).
Edges added by the connector carry no `partial_ring` attribute in the source;
the model stores 0 there. -/
structure GEdge where
  u : Nat
  v : Nat
  similarity : ℚ
  mcsId : Nat
  partRing : Int
  boundary : Bool
deriving DecidableEq


/-- Undirected graph with node list and edge list, modelling a
`networkx.Graph`.  Node order and edge order model the deterministic
iteration order of the underlying dictionaries. -/
structure Graph where
  nodes : List Nat
  edges : List GEdge
deriving DecidableEq


/-- Whether edge record `e` joins the unordered pair `{a, b}`. -/
def samePair (e : GEdge) (a b : Nat) : Bool :=
  (decide (e.u = a) && decide (e.v = b)) || (decide (e.u = b) && decide (e.v = a))


/-- Insert a node if it is not already present (set semantics of networkx
node addition). -/
def insertNode (ns : List Nat) (x : Nat) : List Nat :=
  if x ∈ ns then ns else ns ++ [x]


/-- Model of `networkx.Graph.add_edge`: endpoints are added as nodes when
missing; if the unordered pair already has an edge its attributes are
overwritten in place, otherwise the new edge is appended. -/
def addEdge (g : Graph) (e : GEdge) : Graph :=
  { nodes := insertNode (insertNode g.nodes e.u) e.v,
    edges :=
      if g.edges.any (fun f => samePair f e.u e.v) then
        g.edges.map (fun f => if samePair f e.u e.v then e else f)
      else
        g.edges ++ [e] }


/-- Whether the graph has an edge on the unordered pair `{a, b}`. -/
def hasEdge (g : Graph) (a b : Nat) : Bool :=
  g.edges.any (fun f => samePair f a b)


/-- Well-formedness: every edge endpoint is a node of the graph.  This holds
for every graph the pipeline builds (networkx maintains it by construction). -/
def Graph.Wf (g : Graph) : Prop :=
  ∀ e ∈ g.edges, e.u ∈ g.nodes ∧ e.v ∈ g.nodes


instance (g : Graph) : Decidable g.Wf := by
  unfold Graph.Wf
  infer_instance


/-- Edges incident to node `x`, in graph edge order (model of `g.edges(x)`). -/
def incidentEdges (g : Graph) (x : Nat) : List GEdge :=
  g.edges.filter (fun e => decide (e.u = x) || decide (e.v = x))


/-- Edges with both endpoints in `cluster` (model of the induced subgraph's
edge list, `networkx.subgraph(g, cluster)`). -/
def inducedEdges (g : Graph) (cluster : List Nat) : List GEdge :=
  g.edges.filter (fun e => decide (e.u ∈ cluster) && decide (e.v ∈ cluster))


/-- Edges with at least one endpoint in `cluster` (model of
`g.edges(cluster)`). -/
def edgesTouching (g : Graph) (cluster : List Nat) : List GEdge :=
  g.edges.filter (fun e => decide (e.u ∈ cluster) || decide (e.v ∈ cluster))


/-- Similarity attribute of the edge on pair `{a, b}`, 0 if absent (the
source indexes `g[a][b]["similarity"]` only where the edge exists). -/
def simLookup (g : Graph) (a b : Nat) : ℚ :=
  ((g.edges.find? (fun e => samePair e a b)).map (fun e => e.similarity)).getD 0


/-- The `mcs_id` attribute of the edge on pair `{a, b}`, 0 if absent. -/
def mcsLookup (g : Graph) (a b : Nat) : Nat :=
  ((g.edges.find? (fun e => samePair e a b)).map (fun e => e.mcsId)).getD 0


/-! ### Stable insertion sort

Python's `sorted`/`list.sort` with a comparison function is an ascending,
stable sort.  It is modelled by insertion sort where an element is placed
before the first element not strictly below it, which preserves the relative
order of elements comparing equal. -/

/-- Insert `x` before the first element `y` with `¬ lt y x`. -/
def insertBy (lt : α → α → Bool) (x : α) : List α → List α
  | [] => [x]
  | y :: ys => if lt y x then y :: insertBy lt x ys else x :: y :: ys


/-- Stable ascending sort by the strict comparison `lt`. -/
def sortBy (lt : α → α → Bool) : List α → List α
  | [] => []
  | x :: xs => insertBy lt x (sortBy lt xs)


/-! ### Connectivity and a partition-based union-find

The source relies on `networkx.connected_components` and the union-find
inside `networkx.minimum_spanning_edges`.  Both are modelled with a partition
of the node set represented as a list of groups. -/

/-- Adjacency through an edge list: `x` and `y` are joined by some edge. -/
def adjIn (es : List GEdge) (x y : Nat) : Prop :=
  ∃ e ∈ es, (e.u = x ∧ e.v = y) ∨ (e.u = y ∧ e.v = x)


/-- Reachability through an edge list. -/
def ReachVia (es : List GEdge) : Nat → Nat → Prop :=
  Relation.ReflTransGen (adjIn es)


/-- Whether some group of the partition contains both `x` and `y`. -/
def sameGroupB (p : List (List Nat)) (x y : Nat) : Bool :=
  p.any (fun grp => decide (x ∈ grp) && decide (y ∈ grp))


/-- The group of the partition containing `x` (a fresh singleton if none
does; with a well-formed partition the fallback is never taken). -/
def groupOf (p : List (List Nat)) (x : Nat) : List Nat :=
  (p.find? (fun grp => decide (x ∈ grp))).getD [x]


/-- Merge the groups of `x` and of `y` (a no-op when they already share a
group). -/
def unionGroups (p : List (List Nat)) (x y : Nat) : List (List Nat) :=
  if sameGroupB p x y then p
  else
    (groupOf p x ++ groupOf p y) ::
      p.filter (fun grp => !(decide (x ∈ grp) || decide (y ∈ grp)))


/-- Partition of a node list: groups cover the nodes, stay inside them, are
pairwise disjoint, duplicate-free and nonempty. -/
structure IsPartition (nodes : List Nat) (p : List (List Nat)) : Prop where
  cover : ∀ x, x ∈ nodes → ∃ grp, grp ∈ p ∧ x ∈ grp
  inside : ∀ grp, grp ∈ p → ∀ x, x ∈ grp → x ∈ nodes
  disj : p.Pairwise (fun a b => ∀ x, ¬(x ∈ a ∧ x ∈ b))
  ndEach : ∀ grp, grp ∈ p → grp.Nodup
  nonempty : ∀ grp, grp ∈ p → grp ≠ []


/-! ### Connected components (model of `networkx.connected_components`) -/

/-- Union-find pass over all edges of the graph, starting from singleton
groups of the nodes.  Afterwards the groups are exactly the connected
components. -/
def dsuOf (g : Graph) : List (List Nat) :=
  g.edges.foldl (fun p e => unionGroups p e.u e.v) (g.nodes.map (fun x => [x]))


/-- Soundness invariant: every group stays internally connected through the
ambient edge list `E`. -/
def GroupsConn (E : List GEdge) (p : List (List Nat)) : Prop :=
  ∀ grp ∈ p, ∀ a ∈ grp, ∀ b ∈ grp, ReachVia E a b


/-- Deduplication keeping first occurrences; models the order in which
`networkx.connected_components` first discovers each component. -/
def dedupF (l : List (List Nat)) : List (List Nat) :=
  l.foldl (fun acc c => if c ∈ acc then acc else acc ++ [c]) []


/-- Model of `networkx.connected_components`: the components in the order
their first member appears in the node list. -/
def componentsList (g : Graph) : List (List Nat) :=
  dedupF (g.nodes.map (groupOf (dsuOf g)))


/-- Strict comparison on cluster size, modelling the
`lambda x, y : len(x) - len(y)` comparison of gen_graph.  The source sort is
ascending and Python sorts are stable. -/
def lenLt (a b : List Nat) : Bool := decide (a.length < b.length)


/-- Model of `sorted(networkx.connected_components(desired), cmp)` at line
116 of contribute/graph.py: the cluster extractor. -/
def extractClusters (g : Graph) : List (List Nat) :=
  sortBy lenLt (componentsList g)


/-! ### Cluster Trimmer (trim_cluster, contribute/graph.py lines 56 to 83) -/

/-- Strict edge comparison by similarity, modelling `cmp_edge` (lines 46 to
52): `sign(sim(x) - sim(y))`, used for ascending stable sorts. -/
def simLt (a b : GEdge) : Bool := decide (a.similarity < b.similarity)


/-- Model of the Python slice `r[-num_edges:]`.  Python's negative slicing
returns the whole list when `num_edges` is 0 (since `-0 == 0`) and when
`num_edges` exceeds the length. -/
def takeLastPy (k : Nat) (l : List GEdge) : List GEdge :=
  if k = 0 then l else l.drop (l.length - k)


/-- The per-node kept edges of trim_cluster: for each node of the cluster the
top `numEdges` incident edges by ascending similarity sort (lines 65 to 68). -/
def topEdges (g : Graph) (cluster : List Nat) (numEdges : Nat) : List GEdge :=
  cluster.flatMap (fun x => takeLastPy numEdges (sortBy simLt (incidentEdges g x)))


/-- Kruskal acceptance fold: keep an edge when its endpoints are in distinct
groups, then merge the groups.  Models the union-find inside
`networkx.minimum_spanning_edges`. -/
def kruskalFold (es : List GEdge) (p : List (List Nat)) : List GEdge × List (List Nat) :=
  es.foldl
    (fun acc e =>
      if sameGroupB acc.2 e.u e.v then acc
      else (acc.1 ++ [e], unionGroups acc.2 e.u e.v))
    ([], p)


/-- Comparison by the `reversed_similarity` attribute (the negated
similarity, lines 70 to 74). -/
def revSimLt (a b : GEdge) : Bool := decide (-a.similarity < -b.similarity)


/-- Model of `networkx.minimum_spanning_edges(sg, "reversed_similarity")` on
the induced subgraph of the cluster: Kruskal over the edges sorted ascending
by negated similarity. -/
def mstEdges (g : Graph) (cluster : List Nat) : List GEdge :=
  (kruskalFold (sortBy revSimLt (inducedEdges g cluster))
    (cluster.map (fun x => [x]))).1


/-- The kept node pairs of trim_cluster (lines 76 to 77): the per-node top
edges together with the minimum-spanning-tree edges. -/
def keepPairs (g : Graph) (cluster : List Nat) (numEdges : Nat) : List (Nat × Nat) :=
  (topEdges g cluster numEdges).map (fun e => (e.u, e.v)) ++
    (mstEdges g cluster).map (fun e => (e.u, e.v))


/-- Whether the pair of `e` occurs in `ps` in either orientation, modelling
the test `e not in edges and (e[1], e[0]) not in edges` (line 80). -/
def pairKeptB (ps : List (Nat × Nat)) (e : GEdge) : Bool :=
  decide ((e.u, e.v) ∈ ps) || decide ((e.v, e.u) ∈ ps)


/-- Model of `trim_cluster(g, cluster, num_edges)` (lines 56 to 83): every
edge touching the cluster whose pair is neither a per-node top edge nor a
spanning-tree edge is removed from the graph. -/
def trimCluster (g : Graph) (cluster : List Nat) (numEdges : Nat) : Graph :=
  let ps := keepPairs g cluster numEdges
  let delE := (edgesTouching g cluster).filter (fun e => !pairKeptB ps e)
  { nodes := g.nodes,
    edges := g.edges.filter (fun e => !delE.any (fun d => samePair e d.u d.v)) }


/-! ### Similarity Graph Builder (create, contribute/graph.py lines 20 to 42)

The external knowledge store and MCS module are modelled by an environment:
`parents` models `mcs.get_parent_ids` and `partRingAttr` models
`KBASE.ask(id, "partial_ring")` (whose `LookupError` is `none`).  A rule is a
function from the two parent ids and the mcs id to an optional similarity;
`none` models `rule.similarity` raising an exception. -/

structure Env where
  parents : Nat → Nat × Nat
  partRingAttr : Nat → Option Int


/-- Fallible similarity rule: `none` models an exception escaping
`rule.similarity`. -/
def Rule : Type := Nat → Nat → Nat → Option ℚ


/-- Model of `create(basic_graph, mcs_ids, rule)` (lines 20 to 42).  The
source has no exception handler around `rule.similarity`, so a `none` from
the rule aborts the whole build; only the `partial_ring` lookup is guarded
by try/except. -/
def create (env : Env) (basicGraph : Graph) (mcsIds : List Nat) (rule : Rule) :
    Option Graph :=
  mcsIds.foldlM
    (fun g mid =>
      let p := env.parents mid
      match rule p.1 p.2 mid with
      | none => none
      | some simi =>
        if 0 < simi then
          some (addEdge g
            { u := p.1, v := p.2, similarity := simi, mcsId := mid,
              partRing := (env.partRingAttr mid).getD 0, boundary := false })
        else some g)
    basicGraph


/-- Modelled from the spec: the `Cutoff` rule variant lives in the external
rule module (rule.py, which is not under src/).  Per the spec, a similarity
strictly below the cutoff is treated as zero, and the rule used for the
"complete" graph behaves as an effective cutoff of 0 (it keeps anything with
positive similarity).  The similarity it reads is the value gen_graph
deposited for the mcs id. -/
def cutoffSim (c s : ℚ) : ℚ := if s < c then 0 else s


/-- The pure builder underlying `create` when the rule returns the value
`val mid` for the pair of `mid` without raising. -/
def createP (env : Env) (basicGraph : Graph) (mcsIds : List Nat)
    (val : Nat → ℚ) : Graph :=
  mcsIds.foldl
    (fun g mid =>
      if 0 < val mid then
        addEdge g
          { u := (env.parents mid).1, v := (env.parents mid).2,
            similarity := val mid, mcsId := mid,
            partRing := (env.partRingAttr mid).getD 0, boundary := false }
      else g)
    basicGraph


/-- The pure instance of `create` with a total Cutoff-style rule reading a
similarity table; this is the only way gen_graph invokes `create`. -/
def createC (env : Env) (basicGraph : Graph) (mcsIds : List Nat)
    (table : Nat → ℚ) (c : ℚ) : Graph :=
  createP env basicGraph mcsIds (fun mid => cutoffSim c (table mid))


/-- Whether the ordered parent pair `p` is the unordered pair `{a, b}`. -/
def pairMatch (p : Nat × Nat) (a b : Nat) : Prop :=
  (p.1 = a ∧ p.2 = b) ∨ (p.1 = b ∧ p.2 = a)


instance (p : Nat × Nat) (a b : Nat) : Decidable (pairMatch p a b) := by
  unfold pairMatch
  infer_instance


/-- Concrete environment for counterexamples and witnesses: mcs id 100 has
parents (1,2), id 101 has parents (3,4), id 102 has parents (2,3). -/
def envX : Env :=
  { parents := fun mid => if mid = 100 then (1, 2) else if mid = 101 then (3, 4) else (2, 3),
    partRingAttr := fun _ => none }


/-- Rule that computes similarity 1 for mcs id 100 and raises (none) for
every other id. -/
def ruleFail : Rule := fun _ _ mid => if mid = 100 then some 1 else none


/-! ### Adaptive Threshold Search (gen_graph, contribute/graph.py lines 119
to 142)

State of the binary search: `high`, `mid`, `low`, `trial`, `pretrial` are
the five floats of the source, modelled as rationals; `desired`/`clusters`
are the graph and cluster list rebuilt at the current trial cutoff.  The
test `int(max_csize * 0.95) > n` truncates the float product; it is modelled
by exact arithmetic as `(95 * max_csize) / 100 > n` in natural numbers. -/

structure BState where
  high : ℚ
  mid : ℚ
  low : ℚ
  trial : ℚ
  pretrial : ℚ
  desired : Graph
  clusters : List (List Nat)
deriving DecidableEq


/-- The loop tolerance `1E-6` of line 126. -/
def btol : ℚ := 1 / 1000000


/-- The size of the largest cluster, `len(largest)` where
`largest = clusters[-1]` (clusters are sorted ascending). -/
def largestSize (clusters : List (List Nat)) : Nat :=
  (clusters.getLast?.getD []).length


/-- One run of the while loop of lines 126 to 142, parametrized by the
rebuild of `desired`/`clusters` at a trial cutoff (lines 140 to 142) and by
fuel.  The loop provably terminates (see the termination theorems), so with
the fuel gen_graph passes the `none` case is never reached. -/
def bisectLoop (rebuild : ℚ → Graph × List (List Nat)) (maxCsize : Nat) :
    Nat → BState → Option BState
  | 0, _ => none
  | fuel+1, s =>
    if |s.trial - s.pretrial| ≤ btol then some s
    else
      if maxCsize < largestSize s.clusters then
        bisectLoop rebuild maxCsize fuel
          { high := s.high, mid := (s.high + s.mid) / 2, low := s.mid,
            trial := (s.high + s.mid) / 2, pretrial := s.trial,
            desired := (rebuild ((s.high + s.mid) / 2)).1,
            clusters := (rebuild ((s.high + s.mid) / 2)).2 }
      else if largestSize s.clusters < (95 * maxCsize) / 100 then
        bisectLoop rebuild maxCsize fuel
          { high := s.mid, mid := (s.mid + s.low) / 2, low := s.low,
            trial := (s.mid + s.low) / 2, pretrial := s.trial,
            desired := (rebuild ((s.mid + s.low) / 2)).1,
            clusters := (rebuild ((s.mid + s.low) / 2)).2 }
      else some s


/-- Initial loop state of lines 121 to 125: `high = 1`,
`mid = low = simi_cutoff`, `trial = 1`, `pretrial = 0`. -/
def initB (c : ℚ) (d0 : Graph) (cl0 : List (List Nat)) : BState :=
  { high := 1, mid := c, low := c, trial := 1, pretrial := 0,
    desired := d0, clusters := cl0 }


/-- Fuel with which gen_graph runs the loop; proven sufficient for
termination on every input. -/
def fuelFor (c : ℚ) : Nat := 500000 * (c.den + c.num.natAbs) + 4


/-- Loop invariant after the first iteration: the current trial is `mid`
and the two half-interval gaps agree. -/
def BInv (s : BState) : Prop :=
  s.trial = s.mid ∧ s.high - s.mid = s.mid - s.low


/-! ### Cluster Connector (gen_graph, contribute/graph.py lines 154 to 182) -/

/-- The two `logging.warn` signals of the connector: the cannot-connect
report of lines 165 to 167 and the per-edge boundary-similarity report of
line 178.  No other warning exists anywhere in gen_graph. -/
inductive Warning where
  | cannotConnect (idx : Nat)
  | boundaryInfo (simi : ℚ) (node0 node1 : Nat)
deriving DecidableEq


/-- Model of `networkx.edge_boundary(complete, c1, c2)`: pairs `(x, y)` with
`x` in `c1`, `y` in `c2`, joined by an edge of `complete`, listed with the
`c1` side first. -/
def edgeBoundary (complete : Graph) (c1 c2 : List Nat) : List (Nat × Nat) :=
  c1.flatMap (fun x =>
    (incidentEdges complete x).filterMap (fun e =>
      if (if e.u = x then e.v else e.u) ∈ c2 then
        some (x, if e.u = x then e.v else e.u)
      else none))


/-- All boundary edges from cluster `i` to the other clusters, modelling
lines 160 to 163 (`other_clusters = clusters` with `this_cluster` removed by
value, then `edge_boundary` against each). -/
def boundaryEdges (complete : Graph) (clusters : List (List Nat)) (i : Nat) :
    List (Nat × Nat) :=
  (clusters.erase (clusters.getD i [])).flatMap
    (fun oc => edgeBoundary complete (clusters.getD i []) oc)


/-- The comparison `cmp_edge(complete, x, y)` on boundary pairs (line 169). -/
def c2cLt (complete : Graph) (x y : Nat × Nat) : Bool :=
  decide (simLookup complete x.1 x.2 < simLookup complete y.1 y.2)


/-- Model of the adding loop of lines 171 to 178: pick the entries at the
negative indices `-1, ..., -num_c2c` of the ascending sorted boundary list —
the top `num_c2c` by similarity, best first — and add each to `desired` with
`boundary = true` and the similarity and mcs id copied from `complete`.
When fewer than `num_c2c` boundary edges exist the negative indexing raises
`IndexError` and gen_graph aborts with nothing returned, which is modelled
as `none` (the edges the loop adds before raising are unobservable because
the exception escapes `gen_graph`). -/
def addTop (complete : Graph) (sortedPairs : List (Nat × Nat)) (numC2C : Nat)
    (desired : Graph) : Option (Graph × List (Nat × Nat) × List Warning) :=
  if numC2C ≤ sortedPairs.length then
    some
      (((sortedPairs.drop (sortedPairs.length - numC2C)).reverse).foldl
        (fun g pr =>
          addEdge g
            { u := pr.1, v := pr.2,
              similarity := simLookup complete pr.1 pr.2,
              mcsId := mcsLookup complete pr.1 pr.2,
              partRing := 0, boundary := true }) desired,
       (sortedPairs.drop (sortedPairs.length - numC2C)).reverse,
       ((sortedPairs.drop (sortedPairs.length - numC2C)).reverse).map
         (fun pr => Warning.boundaryInfo (simLookup complete pr.1 pr.2) pr.1 pr.2))
  else none


/-- One iteration of the connecting loop for the popped cluster index `i`
with the remaining pending set `rest` (lines 157 to 182): collect the
boundary edges; if none, warn and continue; otherwise sort them, add the top
`num_c2c`, and drop from the pending set every cluster touched by an added
edge.  Also returns the added pairs for specification purposes. -/
def connectStep (complete : Graph) (clusters : List (List Nat)) (numC2C : Nat)
    (desired : Graph) (i : Nat) (rest : List Nat) :
    Option (Graph × List Nat × List (Nat × Nat) × List Warning) :=
  let c2c := boundaryEdges complete clusters i
  if c2c.isEmpty then some (desired, rest, [], [Warning.cannotConnect i])
  else
    match addTop complete (sortBy (c2cLt complete) c2c) numC2C desired with
    | none => none
    | some (d, chosen, ws) =>
      some (d,
        rest.filter (fun j =>
          !(chosen.any (fun pr =>
            decide (pr.1 ∈ clusters.getD j []) || decide (pr.2 ∈ clusters.getD j [])))),
        chosen, ws)


/-- The connecting while loop of lines 155 to 182; the pending set
`set(range(n))` is modelled as the ordered index list with `pop` taking the
head.  The loop terminates because each step pops one index and only ever
removes further indices, so the pending length bounds the iterations; the
fuel gen_graph passes is that initial length and the fuel-out case is
provably unreachable (`connectStep_pending_le`). -/
def connectLoop (complete : Graph) (clusters : List (List Nat)) (numC2C : Nat) :
    Nat → Graph → List Nat → Option (Graph × List Warning)
  | _, desired, [] => some (desired, [])
  | 0, _, _ :: _ => none
  | fuel+1, desired, i :: rest =>
    match connectStep complete clusters numC2C desired i rest with
    | none => none
    | some (d, pending, _, ws) =>
      match connectLoop complete clusters numC2C fuel d pending with
      | none => none
      | some (d2, ws2) => some (d2, ws ++ ws2)


/-- Whether the graph holds a boundary-flagged edge on pair `{a, b}` with
the given similarity and mcs id. -/
def boundaryRecord (g : Graph) (a b : Nat) (s : ℚ) (m : Nat) : Bool :=
  g.edges.any (fun e =>
    samePair e a b && e.boundary && decide (e.similarity = s) && decide (e.mcsId = m))


/-! ### The full pipeline gen_graph (contribute/graph.py lines 87 to 184) -/

/-- Lookup in the similarity table gen_graph deposits into the store (line
107); the Cutoff rules read exactly these values back. -/
def lookupSim (table : List (Nat × ℚ)) (m : Nat) : ℚ :=
  ((table.find? (fun pr => decide (pr.1 = m))).map (fun pr => pr.2)).getD 0


/-- First phase of gen_graph (lines 102 to 112): evaluate the basic rule on
every mcs id, depositing the similarity and collecting the node ids; an
exception from `basic_rule.similarity` (modelled `none`) aborts gen_graph. -/
def phase1 (env : Env) (basicRule : Rule) (mcsIds : List Nat) :
    Option (List Nat × List (Nat × ℚ)) :=
  mcsIds.foldlM
    (fun acc mid =>
      match basicRule (env.parents mid).1 (env.parents mid).2 mid with
      | none => none
      | some s =>
        some (insertNode (insertNode acc.1 (env.parents mid).1) (env.parents mid).2,
          acc.2 ++ [(mid, s)]))
    ([], [])


/-- The rebuild of lines 140 to 142: desired graph and sorted clusters at a
trial cutoff. -/
def rebuildAt (env : Env) (basic : Graph) (mcsIds : List Nat)
    (table : List (Nat × ℚ)) (t : ℚ) : Graph × List (List Nat) :=
  (createC env basic mcsIds (lookupSim table) t,
   extractClusters (createC env basic mcsIds (lookupSim table) t))


structure GenResult where
  desired : Graph
  clusters : List (List Nat)
  warnings : List Warning
deriving DecidableEq


/-- Model of `gen_graph(mcs_ids, basic_rule, simi_cutoff, max_csize,
num_c2c)`.  The two `create` calls with Cutoff rules are the pure instance
`createC` (see `create_cutoff_eq`); the complete view uses the effective
cutoff 0 per the spec ("keep anything with positive similarity").  The
access `clusters[-1]` on an empty cluster list raises, modelled by the
`getLast?` match.  The bisection runs with fuel proven sufficient
(`bisect_terminates`), the per-cluster degree cap of the trimming pass is
the literal 2 of line 147, and the connector loop then bridges the
clusters. -/
def genGraph (env : Env) (mcsIds : List Nat) (basicRule : Rule)
    (simiCutoff : ℚ) (maxCsize : Nat) (numC2C : Nat) : Option GenResult :=
  match phase1 env basicRule mcsIds with
  | none => none
  | some (allIds, table) =>
    match (extractClusters (createC env { nodes := allIds, edges := [] } mcsIds
        (lookupSim table) simiCutoff)).getLast? with
    | none => none
    | some largest =>
      match
        (if maxCsize < largest.length then
          bisectLoop (rebuildAt env { nodes := allIds, edges := [] } mcsIds table)
            maxCsize (fuelFor simiCutoff)
            (initB simiCutoff
              (createC env { nodes := allIds, edges := [] } mcsIds
                (lookupSim table) simiCutoff)
              (extractClusters (createC env { nodes := allIds, edges := [] } mcsIds
                (lookupSim table) simiCutoff)))
        else
          some (initB simiCutoff
            (createC env { nodes := allIds, edges := [] } mcsIds
              (lookupSim table) simiCutoff)
            (extractClusters (createC env { nodes := allIds, edges := [] } mcsIds
              (lookupSim table) simiCutoff)))) with
      | none => none
      | some s =>
        match connectLoop
            (createC env { nodes := allIds, edges := [] } mcsIds (lookupSim table) 0)
            s.clusters numC2C s.clusters.length
            (s.clusters.foldl (fun g cl => trimCluster g cl 2) s.desired)
            (List.range s.clusters.length) with
        | none => none
        | some (d3, ws) => some { desired := d3, clusters := s.clusters, warnings := ws }


/-- The same pipeline with the trimming degree cap abstracted as an
argument. -/
def genGraphWithCap (env : Env) (mcsIds : List Nat) (basicRule : Rule)
    (simiCutoff : ℚ) (maxCsize : Nat) (numC2C : Nat) (cap : Nat) : Option GenResult :=
  match phase1 env basicRule mcsIds with
  | none => none
  | some (allIds, table) =>
    match (extractClusters (createC env { nodes := allIds, edges := [] } mcsIds
        (lookupSim table) simiCutoff)).getLast? with
    | none => none
    | some largest =>
      match
        (if maxCsize < largest.length then
          bisectLoop (rebuildAt env { nodes := allIds, edges := [] } mcsIds table)
            maxCsize (fuelFor simiCutoff)
            (initB simiCutoff
              (createC env { nodes := allIds, edges := [] } mcsIds
                (lookupSim table) simiCutoff)
              (extractClusters (createC env { nodes := allIds, edges := [] } mcsIds
                (lookupSim table) simiCutoff)))
        else
          some (initB simiCutoff
            (createC env { nodes := allIds, edges := [] } mcsIds
              (lookupSim table) simiCutoff)
            (extractClusters (createC env { nodes := allIds, edges := [] } mcsIds
              (lookupSim table) simiCutoff)))) with
      | none => none
      | some s =>
        match connectLoop
            (createC env { nodes := allIds, edges := [] } mcsIds (lookupSim table) 0)
            s.clusters numC2C s.clusters.length
            (s.clusters.foldl (fun g cl => trimCluster g cl cap) s.desired)
            (List.range s.clusters.length) with
      | none => none
      | some (d3, ws) => some { desired := d3, clusters := s.clusters, warnings := ws }


/-- Environment of the three-molecule example: mcs ids 100, 101, 102 with
parents (1,2), (2,3), (1,3). -/
def envT : Env :=
  { parents := fun mid => if mid = 100 then (1, 2) else if mid = 101 then (2, 3) else (1, 3),
    partRingAttr := fun _ => none }


/-- Rule assigning similarity 1 to every pair. -/
def ruleT : Rule := fun _ _ _ => some 1


/-! ### Concrete witnesses -/

/-- Triangle on nodes 1, 2, 3 (similarities 9, 8, 7) plus the isolated node
4. -/
def gW : Graph :=
  { nodes := [1, 2, 3, 4],
    edges := [{ u := 1, v := 2, similarity := 9, mcsId := 100, partRing := 0, boundary := false },
              { u := 2, v := 3, similarity := 8, mcsId := 101, partRing := 0, boundary := false },
              { u := 1, v := 3, similarity := 7, mcsId := 102, partRing := 0, boundary := false }] }


/-- Loop state for the claim C4 witness: `trial = 1`, `pretrial = 0`, a
largest cluster of size 3. -/
def csW : BState :=
  { high := 1, mid := 0, low := 0, trial := 1, pretrial := 0,
    desired := { nodes := [], edges := [] }, clusters := [[1, 2, 3]] }


def rebW : ℚ → Graph × List (List Nat) := fun _ => ({ nodes := [], edges := [] }, [])


/-- Rule and value table for the claim C5 witness: similarity 1 for id 100,
similarity 0 (the spec's unknown-pair convention) for id 101. -/
def ruleW : Rule := fun _ _ mid => some (if mid = 100 then 1 else 0)


theorem insertBy_perm (lt : α → α → Bool) (x : α) (l : List α) :
    (insertBy lt x l).Perm (x :: l) := by
  induction l with
  | nil => simp [insertBy]
  | cons y ys ih =>
    by_cases h : lt y x = true
    · simp only [insertBy, h, if_pos]
      exact (ih.cons y).trans (List.Perm.swap x y ys)
    · simp only [insertBy, h]
      simp


theorem sortBy_perm (lt : α → α → Bool) (l : List α) :
    (sortBy lt l).Perm l := by
  induction l with
  | nil => simp [sortBy]
  | cons x xs ih =>
    exact (insertBy_perm lt x (sortBy lt xs)).trans (ih.cons x)


theorem mem_sortBy (lt : α → α → Bool) (l : List α) (x : α) :
    x ∈ sortBy lt l ↔ x ∈ l :=
  (sortBy_perm lt l).mem_iff


theorem length_sortBy (lt : α → α → Bool) (l : List α) :
    (sortBy lt l).length = l.length :=
  (sortBy_perm lt l).length_eq


theorem insertBy_pairwise (lt : α → α → Bool)
    (hasym : ∀ a b, lt a b = true → lt b a = false)
    (htr : ∀ a b c, lt b a = false → lt c b = false → lt c a = false)
    (x : α) (l : List α) (hl : l.Pairwise (fun a b => lt b a = false)) :
    (insertBy lt x l).Pairwise (fun a b => lt b a = false) := by
  induction l with
  | nil => simp [insertBy]
  | cons y ys ih =>
    rcases List.pairwise_cons.mp hl with ⟨hy, hys⟩
    by_cases h : lt y x = true
    · simp only [insertBy, h, if_pos]
      refine List.pairwise_cons.mpr ⟨?_, ih hys⟩
      intro b hb
      rcases List.mem_cons.mp ((insertBy_perm lt x ys).mem_iff.mp hb) with hbx | hbys
      · rw [hbx]
        exact hasym y x h
      · exact hy b hbys
    · simp only [insertBy, h, if_neg, Bool.not_eq_true]
      refine List.pairwise_cons.mpr ⟨?_, hl⟩
      intro b hb
      rcases List.mem_cons.mp hb with hby | hbys
      · rw [hby]
        simpa using h
      · have hyx : lt y x = false := by simpa using h
        exact htr x y b hyx (hy b hbys)


theorem sortBy_pairwise (lt : α → α → Bool)
    (hasym : ∀ a b, lt a b = true → lt b a = false)
    (htr : ∀ a b c, lt b a = false → lt c b = false → lt c a = false)
    (l : List α) :
    (sortBy lt l).Pairwise (fun a b => lt b a = false) := by
  induction l with
  | nil => simp [sortBy]
  | cons x xs ih => exact insertBy_pairwise lt hasym htr x (sortBy lt xs) ih


/-- Stability of the sort, phrased through any predicate `p` that refines the
comparison classes: elements before the insertion point of `x` are strictly
below `x`, so filtering by the class of `x` is unchanged up to consing `x`. -/
theorem insertBy_filter_of_class (lt : α → α → Bool) (p : α → Bool) (x : α)
    (hx : p x = true) (hlow : ∀ y, lt y x = true → p y = false) (l : List α) :
    (insertBy lt x l).filter p = x :: l.filter p := by
  induction l with
  | nil => simp [insertBy, hx]
  | cons y ys ih =>
    by_cases h : lt y x = true
    · have hpy : p y = false := hlow y h
      simp [insertBy, h, hpy, ih]
    · simp [insertBy, h, hx]


theorem adjIn_symm (es : List GEdge) : Symmetric (adjIn es) := by
  intro x y ⟨e, he, h⟩
  exact ⟨e, he, by tauto⟩


theorem reachVia_symm (es : List GEdge) : Symmetric (ReachVia es) :=
  Relation.ReflTransGen.symmetric (adjIn_symm es)


theorem adjIn_mono {es es' : List GEdge} (h : ∀ e ∈ es, e ∈ es') {x y : Nat}
    (hxy : adjIn es x y) : adjIn es' x y := by
  rcases hxy with ⟨e, he, hh⟩
  exact ⟨e, h e he, hh⟩


theorem reachVia_mono {es es' : List GEdge} (h : ∀ e ∈ es, e ∈ es') {x y : Nat}
    (hxy : ReachVia es x y) : ReachVia es' x y :=
  Relation.ReflTransGen.mono (fun _ _ => adjIn_mono h) hxy


theorem isPartition_init (nodes : List Nat) (hnd : nodes.Nodup) :
    IsPartition nodes (nodes.map (fun x => [x])) := by
  refine ⟨?_, ?_, ?_, ?_, ?_⟩
  · intro x hx
    exact ⟨[x], List.mem_map_of_mem _ hx, by simp⟩
  · intro grp hg x hx
    rcases List.mem_map.mp hg with ⟨y, hy, rfl⟩
    rcases List.mem_singleton.mp hx with rfl
    exact hy
  · refine List.Pairwise.map _ ?_ hnd
    intro a b hab x ⟨hxa, hxb⟩
    rcases List.mem_singleton.mp hxa with rfl
    rcases List.mem_singleton.mp hxb with rfl
    exact hab rfl
  · intro grp hg
    rcases List.mem_map.mp hg with ⟨y, _, rfl⟩
    simp
  · intro grp hg
    rcases List.mem_map.mp hg with ⟨y, _, rfl⟩
    simp


theorem sameGroupB_iff (p : List (List Nat)) (x y : Nat) :
    sameGroupB p x y = true ↔ ∃ grp ∈ p, x ∈ grp ∧ y ∈ grp := by
  simp [sameGroupB, List.any_eq_true]


/-- Two groups of a partition sharing a member are equal. -/
theorem IsPartition.group_eq {nodes : List Nat} {p : List (List Nat)}
    (hp : IsPartition nodes p) {g1 g2 : List Nat} (h1 : g1 ∈ p) (h2 : g2 ∈ p)
    {x : Nat} (hx1 : x ∈ g1) (hx2 : x ∈ g2) : g1 = g2 := by
  by_contra hne
  have hsym : Symmetric (fun a b : List Nat => ∀ z, ¬(z ∈ a ∧ z ∈ b)) := by
    intro a b h z ⟨hz1, hz2⟩
    exact h z ⟨hz2, hz1⟩
  exact (List.Pairwise.forall hsym hp.disj) h1 h2 hne x ⟨hx1, hx2⟩


theorem groupOf_spec {nodes : List Nat} {p : List (List Nat)}
    (hp : IsPartition nodes p) {x : Nat} (hx : x ∈ nodes) :
    groupOf p x ∈ p ∧ x ∈ groupOf p x := by
  rcases hp.cover x hx with ⟨grp, hg, hxg⟩
  have hsome : (p.find? (fun grp => decide (x ∈ grp))).isSome = true :=
    List.find?_isSome.mpr ⟨grp, hg, decide_eq_true hxg⟩
  rcases Option.isSome_iff_exists.mp hsome with ⟨g, hfind⟩
  have hmem := List.mem_of_find?_eq_some hfind
  have hxmem : x ∈ g := by simpa using List.find?_some hfind
  simp [groupOf, hfind, hmem, hxmem]


theorem unionGroups_partition {nodes : List Nat} {p : List (List Nat)}
    (hp : IsPartition nodes p) {x y : Nat} (hx : x ∈ nodes) (hy : y ∈ nodes) :
    IsPartition nodes (unionGroups p x y) := by
  by_cases hs : sameGroupB p x y = true
  · simpa [unionGroups, hs] using hp
  · have hgx := groupOf_spec hp hx
    have hgy := groupOf_spec hp hy
    have hxy : ∀ z, ¬(z ∈ groupOf p x ∧ z ∈ groupOf p y) := by
      intro z ⟨hz1, hz2⟩
      have : groupOf p x = groupOf p y := hp.group_eq hgx.1 hgy.1 hz1 hz2
      exact hs ((sameGroupB_iff p x y).mpr ⟨groupOf p x, hgx.1, hgx.2, this ▸ hgy.2⟩)
    have hkeep : ∀ grp ∈ p.filter (fun grp => !(decide (x ∈ grp) || decide (y ∈ grp))),
        grp ∈ p ∧ x ∉ grp ∧ y ∉ grp := by
      intro grp hg
      have h1 := List.mem_of_mem_filter hg
      have h2 := List.of_mem_filter hg
      simp only [Bool.not_eq_true', Bool.or_eq_false_iff, decide_eq_false_iff_not] at h2
      exact ⟨h1, h2.1, h2.2⟩
    rw [unionGroups, if_neg (by simp [hs])]
    refine ⟨?_, ?_, ?_, ?_, ?_⟩
    · intro z hz
      rcases hp.cover z hz with ⟨grp, hg, hzg⟩
      by_cases hxg : x ∈ grp
      · have : grp = groupOf p x := hp.group_eq hg hgx.1 hxg hgx.2
        exact ⟨_, List.mem_cons_self _ _, List.mem_append_left _ (this ▸ hzg)⟩
      · by_cases hyg : y ∈ grp
        · have : grp = groupOf p y := hp.group_eq hg hgy.1 hyg hgy.2
          exact ⟨_, List.mem_cons_self _ _, List.mem_append_right _ (this ▸ hzg)⟩
        · refine ⟨grp, List.mem_cons_of_mem _ ?_, hzg⟩
          exact List.mem_filter.mpr ⟨hg, by simp [hxg, hyg]⟩
    · intro grp hg z hz
      rcases List.mem_cons.mp hg with rfl | hg
      · rcases List.mem_append.mp hz with h | h
        · exact hp.inside _ hgx.1 z h
        · exact hp.inside _ hgy.1 z h
      · exact hp.inside _ (hkeep grp hg).1 z hz
    · refine List.pairwise_cons.mpr ⟨?_, ?_⟩
      · intro grp hg z ⟨hz1, hz2⟩
        rcases hkeep grp hg with ⟨hgp, hxg, hyg⟩
        rcases List.mem_append.mp hz1 with h | h
        · have : groupOf p x = grp := hp.group_eq hgx.1 hgp h hz2
          exact hxg (this ▸ hgx.2)
        · have : groupOf p y = grp := hp.group_eq hgy.1 hgp h hz2
          exact hyg (this ▸ hgy.2)
      · exact List.Pairwise.sublist (List.filter_sublist _) hp.disj
    · intro grp hg
      rcases List.mem_cons.mp hg with rfl | hg
      · exact List.Nodup.append (hp.ndEach _ hgx.1) (hp.ndEach _ hgy.1)
          (fun a ha hb => hxy a ⟨ha, hb⟩)
      · exact hp.ndEach _ (hkeep grp hg).1
    · intro grp hg
      rcases List.mem_cons.mp hg with rfl | hg
      · have := hp.nonempty _ hgx.1
        intro hcontra
        rcases List.append_eq_nil.mp hcontra with ⟨h1, _⟩
        exact this h1
      · exact hp.nonempty _ (hkeep grp hg).1


/-- Being in one group is preserved by further unions. -/
theorem sameGroupB_unionGroups_mono {nodes : List Nat} {p : List (List Nat)}
    (hp : IsPartition nodes p) {x y u v : Nat}
    (h : sameGroupB p x y = true) : sameGroupB (unionGroups p u v) x y = true := by
  rcases (sameGroupB_iff p x y).mp h with ⟨grp, hg, hx, hy⟩
  by_cases hs : sameGroupB p u v = true
  · simpa [unionGroups, hs] using h
  · rw [unionGroups, if_neg (by simp [hs])]
    by_cases hu : u ∈ grp
    · have hgu := groupOf_spec hp (hp.inside _ hg _ hu)
      have heq : grp = groupOf p u := hp.group_eq hg hgu.1 hu hgu.2
      exact (sameGroupB_iff _ x y).mpr ⟨groupOf p u ++ groupOf p v,
        List.mem_cons_self _ _, List.mem_append_left _ (heq ▸ hx),
        List.mem_append_left _ (heq ▸ hy)⟩
    · by_cases hv : v ∈ grp
      · have hgv := groupOf_spec hp (hp.inside _ hg _ hv)
        have heq : grp = groupOf p v := hp.group_eq hg hgv.1 hv hgv.2
        exact (sameGroupB_iff _ x y).mpr ⟨groupOf p u ++ groupOf p v,
          List.mem_cons_self _ _, List.mem_append_right _ (heq ▸ hx),
          List.mem_append_right _ (heq ▸ hy)⟩
      · refine (sameGroupB_iff _ x y).mpr ⟨grp, List.mem_cons_of_mem _ ?_, hx, hy⟩
        exact List.mem_filter.mpr ⟨hg, by simp [hu, hv]⟩


/-- After `unionGroups p x y`, the two arguments share a group. -/
theorem sameGroupB_unionGroups_self {nodes : List Nat} {p : List (List Nat)}
    (hp : IsPartition nodes p) {x y : Nat} (hx : x ∈ nodes) (hy : y ∈ nodes) :
    sameGroupB (unionGroups p x y) x y = true := by
  by_cases hs : sameGroupB p x y = true
  · rw [unionGroups, if_pos hs]
    exact hs
  · rw [unionGroups, if_neg (by simp [hs])]
    exact (sameGroupB_iff _ x y).mpr ⟨groupOf p x ++ groupOf p y,
      List.mem_cons_self _ _, List.mem_append_left _ (groupOf_spec hp hx).2,
      List.mem_append_right _ (groupOf_spec hp hy).2⟩


/-- Generic invariant: folding unions over edges whose endpoints lie in the
node list preserves being a partition. -/
theorem dsuFold_partition {nodes : List Nat} (es : List GEdge)
    (p : List (List Nat)) (hp : IsPartition nodes p)
    (hes : ∀ e ∈ es, e.u ∈ nodes ∧ e.v ∈ nodes) :
    IsPartition nodes (es.foldl (fun p e => unionGroups p e.u e.v) p) := by
  induction es generalizing p with
  | nil => exact hp
  | cons e es ih =>
    have he := hes e (List.mem_cons_self _ _)
    exact ih _ (unionGroups_partition hp he.1 he.2)
      (fun f hf => hes f (List.mem_cons_of_mem _ hf))


theorem dsuOf_partition (g : Graph) (hwf : g.Wf) (hnd : g.nodes.Nodup) :
    IsPartition g.nodes (dsuOf g) :=
  dsuFold_partition g.edges _ (isPartition_init g.nodes hnd) hwf


theorem groupsConn_init (E : List GEdge) (nodes : List Nat) :
    GroupsConn E (nodes.map (fun x => [x])) := by
  intro grp hg a ha b hb
  rcases List.mem_map.mp hg with ⟨z, _, rfl⟩
  rcases List.mem_singleton.mp ha with rfl
  rcases List.mem_singleton.mp hb with rfl
  exact Relation.ReflTransGen.refl


theorem groupsConn_unionGroups {E : List GEdge} {nodes : List Nat}
    {p : List (List Nat)} (hp : IsPartition nodes p) (hc : GroupsConn E p)
    {x y : Nat} (hx : x ∈ nodes) (hy : y ∈ nodes) (hadj : adjIn E x y) :
    GroupsConn E (unionGroups p x y) := by
  by_cases hs : sameGroupB p x y = true
  · rw [unionGroups, if_pos hs]
    exact hc
  · rw [unionGroups, if_neg (by simp [hs])]
    have hgx := groupOf_spec hp hx
    have hgy := groupOf_spec hp hy
    intro grp hg a ha b hb
    rcases List.mem_cons.mp hg with rfl | hg
    · have reach : ∀ z ∈ groupOf p x ++ groupOf p y, ReachVia E x z := by
        intro z hz
        rcases List.mem_append.mp hz with h | h
        · exact hc _ hgx.1 x hgx.2 z h
        · exact Relation.ReflTransGen.head hadj (hc _ hgy.1 y hgy.2 z h)
      exact (reachVia_symm E (reach a ha)).trans (reach b hb)
    · exact hc _ (List.mem_of_mem_filter hg) a ha b hb


theorem dsuOf_sound (g : Graph) (hwf : g.Wf) (hnd : g.nodes.Nodup) :
    GroupsConn g.edges (dsuOf g) := by
  have main : ∀ es : List GEdge, (∀ e ∈ es, e ∈ g.edges) →
      ∀ p, IsPartition g.nodes p → GroupsConn g.edges p →
      GroupsConn g.edges (es.foldl (fun p e => unionGroups p e.u e.v) p) := by
    intro es
    induction es with
    | nil => intro _ p _ hc; exact hc
    | cons e es ih =>
      intro hsub p hp hc
      have he : e ∈ g.edges := hsub e (List.mem_cons_self _ _)
      have hend := hwf e he
      exact ih (fun f hf => hsub f (List.mem_cons_of_mem _ hf)) _
        (unionGroups_partition hp hend.1 hend.2)
        (groupsConn_unionGroups hp hc hend.1 hend.2 ⟨e, he, Or.inl ⟨rfl, rfl⟩⟩)
  exact main g.edges (fun _ h => h) _ (isPartition_init g.nodes hnd)
    (groupsConn_init g.edges g.nodes)


/-- Completeness: after the union pass, the endpoints of every edge share a
group. -/
theorem dsuOf_complete (g : Graph) (hwf : g.Wf) (hnd : g.nodes.Nodup) :
    ∀ e ∈ g.edges, sameGroupB (dsuOf g) e.u e.v = true := by
  have main : ∀ es : List GEdge, (∀ e ∈ es, e ∈ g.edges) →
      ∀ p, IsPartition g.nodes p →
      (es.foldl (fun p e => unionGroups p e.u e.v) p = dsuOf g → True) →
      ∀ e ∈ es, sameGroupB (es.foldl (fun p e => unionGroups p e.u e.v) p) e.u e.v = true := by
    intro es
    induction es with
    | nil => intro _ _ _ _ e he; exact absurd he (List.not_mem_nil e)
    | cons f es ih =>
      intro hsub p hp _ e he
      have hf : f ∈ g.edges := hsub f (List.mem_cons_self _ _)
      have hend := hwf f hf
      have hp' := unionGroups_partition hp hend.1 hend.2
      rcases List.mem_cons.mp he with rfl | he
      · have hself := sameGroupB_unionGroups_self hp hend.1 hend.2
        have mono : ∀ (qs : List GEdge) (q : List (List Nat)),
            IsPartition g.nodes q → (∀ r ∈ qs, r ∈ g.edges) →
            sameGroupB q e.u e.v = true →
            sameGroupB (qs.foldl (fun p r => unionGroups p r.u r.v) q) e.u e.v = true := by
          intro qs
          induction qs with
          | nil => intro q _ _ hq; exact hq
          | cons r qs ihq =>
            intro q hqp hqsub hq
            have hr := hwf r (hqsub r (List.mem_cons_self _ _))
            exact ihq _ (unionGroups_partition hqp hr.1 hr.2)
              (fun s hs => hqsub s (List.mem_cons_of_mem _ hs))
              (sameGroupB_unionGroups_mono hqp hq)
        exact mono es _ hp' (fun s hs => hsub s (List.mem_cons_of_mem _ hs)) hself
      · exact ih (fun s hs => hsub s (List.mem_cons_of_mem _ hs)) _ hp' (fun _ => trivial) e he
  intro e he
  exact main g.edges (fun _ h => h) _ (isPartition_init g.nodes hnd) (fun _ => trivial) e he


theorem dedupF_aux_mem (l : List (List Nat)) :
    ∀ acc x, (x ∈ l.foldl (fun acc c => if c ∈ acc then acc else acc ++ [c]) acc) ↔
      x ∈ acc ∨ x ∈ l := by
  induction l with
  | nil => intro acc x; simp
  | cons c cs ih =>
    intro acc x
    by_cases hc : c ∈ acc
    · rw [List.foldl_cons, if_pos hc, ih]
      constructor
      · rintro (h | h)
        · exact Or.inl h
        · exact Or.inr (List.mem_cons_of_mem _ h)
      · rintro (h | h)
        · exact Or.inl h
        · rcases List.mem_cons.mp h with rfl | h
          · exact Or.inl hc
          · exact Or.inr h
    · rw [List.foldl_cons, if_neg hc, ih]
      constructor
      · rintro (h | h)
        · rcases List.mem_append.mp h with h | h
          · exact Or.inl h
          · exact Or.inr (List.mem_cons.mpr (Or.inl (List.mem_singleton.mp h)))
        · exact Or.inr (List.mem_cons_of_mem _ h)
      · rintro (h | h)
        · exact Or.inl (List.mem_append_left _ h)
        · rcases List.mem_cons.mp h with rfl | h
          · exact Or.inl (List.mem_append_right _ (List.mem_singleton.mpr rfl))
          · exact Or.inr h


theorem mem_dedupF (l : List (List Nat)) (x : List Nat) :
    x ∈ dedupF l ↔ x ∈ l := by
  rw [dedupF, dedupF_aux_mem]
  simp


theorem dedupF_aux_nodup (l : List (List Nat)) :
    ∀ acc, acc.Nodup → (l.foldl (fun acc c => if c ∈ acc then acc else acc ++ [c]) acc).Nodup := by
  induction l with
  | nil => intro acc h; exact h
  | cons c cs ih =>
    intro acc h
    by_cases hc : c ∈ acc
    · rw [List.foldl_cons, if_pos hc]
      exact ih acc h
    · rw [List.foldl_cons, if_neg hc]
      refine ih _ ?_
      simpa [List.nodup_append] using ⟨h, hc⟩


theorem nodup_dedupF (l : List (List Nat)) : (dedupF l).Nodup :=
  dedupF_aux_nodup l [] List.nodup_nil


theorem mem_componentsList_iff (g : Graph) (c : List Nat) :
    c ∈ componentsList g ↔ ∃ x ∈ g.nodes, c = groupOf (dsuOf g) x := by
  rw [componentsList, mem_dedupF]
  simp [List.mem_map, eq_comm]


theorem mem_extractClusters_iff (g : Graph) (c : List Nat) :
    c ∈ extractClusters g ↔ ∃ x ∈ g.nodes, c = groupOf (dsuOf g) x := by
  rw [extractClusters, mem_sortBy, mem_componentsList_iff]


/-- Every extracted cluster is a group of the union-find partition. -/
theorem extractClusters_mem_dsu (g : Graph) (hwf : g.Wf) (hnd : g.nodes.Nodup)
    {c : List Nat} (hc : c ∈ extractClusters g) :
    c ∈ dsuOf g := by
  rcases (mem_extractClusters_iff g c).mp hc with ⟨x, hx, rfl⟩
  exact (groupOf_spec (dsuOf_partition g hwf hnd) hx).1


/-- Members of one extracted cluster are mutually reachable in the graph. -/
theorem extractClusters_conn (g : Graph) (hwf : g.Wf) (hnd : g.nodes.Nodup)
    {c : List Nat} (hc : c ∈ extractClusters g) {a b : Nat}
    (ha : a ∈ c) (hb : b ∈ c) : ReachVia g.edges a b :=
  dsuOf_sound g hwf hnd c (extractClusters_mem_dsu g hwf hnd hc) a ha b hb


/-- An extracted cluster is closed under the edges of the graph. -/
theorem extractClusters_closed (g : Graph) (hwf : g.Wf) (hnd : g.nodes.Nodup)
    {c : List Nat} (hc : c ∈ extractClusters g) {e : GEdge}
    (he : e ∈ g.edges) : (e.u ∈ c ↔ e.v ∈ c) := by
  have hp := dsuOf_partition g hwf hnd
  have hcp := extractClusters_mem_dsu g hwf hnd hc
  rcases (sameGroupB_iff _ _ _).mp (dsuOf_complete g hwf hnd e he) with ⟨grp, hg, hu, hv⟩
  constructor
  · intro huc
    have : c = grp := hp.group_eq hcp hg huc hu
    exact this ▸ hv
  · intro hvc
    have : c = grp := hp.group_eq hcp hg hvc hv
    exact this ▸ hu


/-- The Kruskal fold keeps only input edges. -/
theorem kruskalFold_kept_sub (es : List GEdge) (p : List (List Nat)) :
    ∀ e ∈ (kruskalFold es p).1, e ∈ es := by
  have aux : ∀ (es : List GEdge) (acc : List GEdge × List (List Nat)),
      ∀ e ∈ (es.foldl (fun acc e =>
        if sameGroupB acc.2 e.u e.v then acc
        else (acc.1 ++ [e], unionGroups acc.2 e.u e.v)) acc).1,
      e ∈ acc.1 ∨ e ∈ es := by
    intro es
    induction es with
    | nil => intro acc e he; exact Or.inl he
    | cons f fs ih =>
      intro acc e he
      by_cases hs : sameGroupB acc.2 f.u f.v = true
      · rw [List.foldl_cons, if_pos hs] at he
        rcases ih acc e he with h | h
        · exact Or.inl h
        · exact Or.inr (List.mem_cons_of_mem _ h)
      · rw [List.foldl_cons, if_neg (by simp [hs])] at he
        rcases ih _ e he with h | h
        · rcases List.mem_append.mp h with h | h
          · exact Or.inl h
          · exact Or.inr (List.mem_cons.mpr (Or.inl (List.mem_singleton.mp h)))
        · exact Or.inr (List.mem_cons_of_mem _ h)
  intro e he
  rcases aux es ([], p) e he with h | h
  · exact absurd h (List.not_mem_nil e)
  · exact h


/-- Main property of the Kruskal fold: the endpoints of every processed edge
are joined through the kept edges. -/
theorem kruskalFold_connects {nodes : List Nat} (es : List GEdge)
    (p : List (List Nat)) (hp : IsPartition nodes p)
    (hconn0 : GroupsConn [] p)
    (hes : ∀ e ∈ es, e.u ∈ nodes ∧ e.v ∈ nodes) :
    ∀ e ∈ es, ReachVia (kruskalFold es p).1 e.u e.v := by
  have aux : ∀ (es : List GEdge), (∀ e ∈ es, e.u ∈ nodes ∧ e.v ∈ nodes) →
      ∀ (kept : List GEdge) (q : List (List Nat)), IsPartition nodes q →
      GroupsConn kept q →
      (∀ grp ∈ q, True) →
      (GroupsConn (es.foldl (fun acc e =>
          if sameGroupB acc.2 e.u e.v then acc
          else (acc.1 ++ [e], unionGroups acc.2 e.u e.v)) (kept, q)).1
        ((es.foldl (fun acc e =>
          if sameGroupB acc.2 e.u e.v then acc
          else (acc.1 ++ [e], unionGroups acc.2 e.u e.v)) (kept, q)).2)) ∧
      (∀ e ∈ es, ReachVia (es.foldl (fun acc e =>
          if sameGroupB acc.2 e.u e.v then acc
          else (acc.1 ++ [e], unionGroups acc.2 e.u e.v)) (kept, q)).1 e.u e.v) ∧
      (∀ f ∈ kept, f ∈ (es.foldl (fun acc e =>
          if sameGroupB acc.2 e.u e.v then acc
          else (acc.1 ++ [e], unionGroups acc.2 e.u e.v)) (kept, q)).1) := by
    intro es
    induction es with
    | nil =>
      intro _ kept q hq hconn _
      exact ⟨hconn, fun e he => absurd he (List.not_mem_nil e), fun f hf => hf⟩
    | cons e es ih =>
      intro hes kept q hq hconn _
      have hend := hes e (List.mem_cons_self _ _)
      by_cases hs : sameGroupB q e.u e.v = true
      · rw [List.foldl_cons, if_pos hs]
        have rest := ih (fun f hf => hes f (List.mem_cons_of_mem _ hf)) kept q hq hconn
          (fun _ _ => trivial)
        refine ⟨rest.1, ?_, rest.2.2⟩
        intro f hf
        rcases List.mem_cons.mp hf with rfl | hf
        · rcases (sameGroupB_iff _ _ _).mp hs with ⟨grp, hg, hu, hv⟩
          exact reachVia_mono rest.2.2 (hconn grp hg _ hu _ hv)
        · exact rest.2.1 f hf
      · rw [List.foldl_cons, if_neg (by simp [hs])]
        have hq' := unionGroups_partition hq hend.1 hend.2
        have hadj : adjIn (kept ++ [e]) e.u e.v :=
          ⟨e, List.mem_append_right _ (List.mem_singleton.mpr rfl), Or.inl ⟨rfl, rfl⟩⟩
        have hconn' : GroupsConn (kept ++ [e]) (unionGroups q e.u e.v) := by
          refine groupsConn_unionGroups hq ?_ hend.1 hend.2 hadj
          intro grp hg a ha b hb
          exact reachVia_mono (fun f hf => List.mem_append_left _ hf) (hconn grp hg a ha b hb)
        have rest := ih (fun f hf => hes f (List.mem_cons_of_mem _ hf)) (kept ++ [e])
          (unionGroups q e.u e.v) hq' hconn' (fun _ _ => trivial)
        refine ⟨rest.1, ?_, ?_⟩
        · intro f hf
          rcases List.mem_cons.mp hf with heq | hf
          · rw [heq]
            have hmem : e ∈ kept ++ [e] := List.mem_append_right _ (List.mem_singleton.mpr rfl)
            exact Relation.ReflTransGen.single ⟨e, rest.2.2 e hmem, Or.inl ⟨rfl, rfl⟩⟩
          · exact rest.2.1 f hf
        · intro f hf
          exact rest.2.2 f (List.mem_append_left _ hf)
  intro e he
  exact (aux es hes [] p hp hconn0 (fun _ _ => trivial)).2.1 e he


/-- The initial singleton partition of Kruskal is trivially connected by the
empty kept list. -/
theorem groupsConn_nil_singletons (cluster : List Nat) :
    GroupsConn ([] : List GEdge) (cluster.map (fun x => [x])) := by
  intro grp hg a ha b hb
  rcases List.mem_map.mp hg with ⟨z, _, rfl⟩
  rcases List.mem_singleton.mp ha with rfl
  rcases List.mem_singleton.mp hb with rfl
  exact Relation.ReflTransGen.refl


theorem inducedEdges_sub (g : Graph) (cluster : List Nat) :
    ∀ e ∈ inducedEdges g cluster, e ∈ g.edges ∧ e.u ∈ cluster ∧ e.v ∈ cluster := by
  intro e he
  have h1 := List.mem_of_mem_filter he
  have h2 := List.of_mem_filter he
  simp only [Bool.and_eq_true, decide_eq_true_eq] at h2
  exact ⟨h1, h2.1, h2.2⟩


theorem mstEdges_sub (g : Graph) (cluster : List Nat) :
    ∀ e ∈ mstEdges g cluster, e ∈ g.edges ∧ e.u ∈ cluster ∧ e.v ∈ cluster := by
  intro e he
  have := kruskalFold_kept_sub _ _ e he
  exact inducedEdges_sub g cluster e ((mem_sortBy _ _ e).mp this)


/-- The spanning-tree edges joint every induced edge's endpoints. -/
theorem mstEdges_connects (g : Graph) (cluster : List Nat) (hndc : cluster.Nodup) :
    ∀ e ∈ inducedEdges g cluster, ReachVia (mstEdges g cluster) e.u e.v := by
  intro e he
  refine @kruskalFold_connects cluster _ _
    (isPartition_init cluster hndc) (groupsConn_nil_singletons cluster) ?_ e
    ((mem_sortBy _ _ e).mpr he)
  intro f hf
  exact (inducedEdges_sub g cluster f ((mem_sortBy _ _ f).mp hf)).2


/-- A kept pair is never deleted by trim_cluster. -/
theorem trimCluster_keeps_pair (g : Graph) (cluster : List Nat) (numEdges : Nat)
    {e : GEdge} (he : e ∈ g.edges)
    (hk : pairKeptB (keepPairs g cluster numEdges) e = true) :
    e ∈ (trimCluster g cluster numEdges).edges := by
  rw [trimCluster]
  refine List.mem_filter.mpr ⟨he, ?_⟩
  simp only [Bool.not_eq_true', List.any_eq_false]
  intro d hd
  have hdel := List.of_mem_filter hd
  simp only [Bool.not_eq_true'] at hdel
  by_contra hpair
  have hkd : pairKeptB (keepPairs g cluster numEdges) d = true := by
    rw [pairKeptB] at hk
    rcases Bool.or_eq_true_iff.mp hpair with h | h
    · rcases Bool.and_eq_true_iff.mp h with ⟨h1, h2⟩
      have e1 : d.u = e.u := (of_decide_eq_true h1).symm
      have e2 : d.v = e.v := (of_decide_eq_true h2).symm
      rw [pairKeptB, e1, e2]
      exact hk
    · rcases Bool.and_eq_true_iff.mp h with ⟨h1, h2⟩
      have e1 : d.v = e.u := (of_decide_eq_true h1).symm
      have e2 : d.u = e.v := (of_decide_eq_true h2).symm
      rw [pairKeptB, e1, e2, Bool.or_comm]
      exact hk
  rw [hdel] at hkd
  exact Bool.false_ne_true hkd


theorem mstEdges_in_trimmed (g : Graph) (cluster : List Nat) (numEdges : Nat)
    {e : GEdge} (he : e ∈ mstEdges g cluster) :
    e ∈ (trimCluster g cluster numEdges).edges := by
  refine trimCluster_keeps_pair g cluster numEdges (mstEdges_sub g cluster e he).1 ?_
  have : (e.u, e.v) ∈ keepPairs g cluster numEdges :=
    List.mem_append_right _ (List.mem_map_of_mem _ he)
  simp [pairKeptB, this]


/-- CLAIM C1.  Let `cluster` be a cluster of the desired graph (a connected
component as returned by the extractor).  After `trim_cluster` runs on it:
the nodes of the cluster are still mutually reachable inside the trimmed
graph; an edge touching the cluster survives exactly when its pair is among
the per-node top `numEdges` edges or the spanning-tree edges; and no edge is
ever added. -/
theorem claim1_trim_cluster_connected (g : Graph) (cluster : List Nat)
    (numEdges : Nat) (hwf : g.Wf) (hnd : g.nodes.Nodup)
    (hc : cluster ∈ extractClusters g) :
    (∀ x ∈ cluster, ∀ y ∈ cluster,
        ReachVia (trimCluster g cluster numEdges).edges x y) ∧
    (∀ e ∈ g.edges, (e.u ∈ cluster ∨ e.v ∈ cluster) →
        (e ∈ (trimCluster g cluster numEdges).edges ↔
          pairKeptB (keepPairs g cluster numEdges) e = true)) ∧
    (∀ e ∈ (trimCluster g cluster numEdges).edges, e ∈ g.edges) := by
  have hndc : cluster.Nodup :=
    (dsuOf_partition g hwf hnd).ndEach cluster (extractClusters_mem_dsu g hwf hnd hc)
  refine ⟨?_, ?_, ?_⟩
  · intro x hx y hy
    have hreach := extractClusters_conn g hwf hnd hc hx hy
    have main : ∀ z, ReachVia g.edges x z → z ∈ cluster →
        ReachVia (trimCluster g cluster numEdges).edges x z := by
      intro z hz
      induction hz with
      | refl => intro _; exact Relation.ReflTransGen.refl
      | tail hab hbc ih =>
        rename_i b c
        intro hcc
        rcases hbc with ⟨e, he, hor⟩
        have hends : e.u ∈ cluster ∧ e.v ∈ cluster := by
          rcases hor with ⟨h1, h2⟩ | ⟨h1, h2⟩
          · have hv : e.v ∈ cluster := by rw [h2]; exact hcc
            exact ⟨(extractClusters_closed g hwf hnd hc he).mpr hv, hv⟩
          · have hu : e.u ∈ cluster := by rw [h1]; exact hcc
            exact ⟨hu, (extractClusters_closed g hwf hnd hc he).mp hu⟩
        have hbcluster : b ∈ cluster := by
          rcases hor with ⟨h1, h2⟩ | ⟨h1, h2⟩
          · rw [← h1]; exact hends.1
          · rw [← h2]; exact hends.2
        have hind : e ∈ inducedEdges g cluster := by
          refine List.mem_filter.mpr ⟨he, ?_⟩
          simp [hends.1, hends.2]
        have hmst := mstEdges_connects g cluster hndc e hind
        have htrim : ReachVia (trimCluster g cluster numEdges).edges e.u e.v :=
          reachVia_mono (fun f hf => mstEdges_in_trimmed g cluster numEdges hf) hmst
        have hbc' : ReachVia (trimCluster g cluster numEdges).edges b c := by
          rcases hor with ⟨h1, h2⟩ | ⟨h1, h2⟩
          · exact h1 ▸ h2 ▸ htrim
          · exact reachVia_symm _ (h2 ▸ h1 ▸ htrim)
        exact (ih hbcluster).trans hbc'
    exact main y hreach hy
  · intro e he htouch
    constructor
    · intro hmem
      by_contra hk
      have hkf : pairKeptB (keepPairs g cluster numEdges) e = false := by
        simpa using hk
      have hdel : e ∈ (edgesTouching g cluster).filter
          (fun f => !pairKeptB (keepPairs g cluster numEdges) f) := by
        refine List.mem_filter.mpr ⟨?_, by simp [hkf]⟩
        refine List.mem_filter.mpr ⟨he, ?_⟩
        rcases htouch with h | h
        · simp [h]
        · simp [h]
      have := List.of_mem_filter hmem
      simp only [Bool.not_eq_true', List.any_eq_false, Bool.not_eq_true] at this
      exact absurd (this e hdel) (by simp [samePair])
    · intro hk
      exact trimCluster_keeps_pair g cluster numEdges he hk
  · intro e he
    exact List.mem_of_mem_filter he


/-- Bridge between the fallible `create` and the pure builder: a rule that
never raises on the listed ids never aborts the build. -/
theorem create_eq_some_of_total (env : Env) (basicGraph : Graph)
    (mcsIds : List Nat) (rule : Rule) (val : Nat → ℚ)
    (h : ∀ mid ∈ mcsIds, rule (env.parents mid).1 (env.parents mid).2 mid = some (val mid)) :
    create env basicGraph mcsIds rule = some (createP env basicGraph mcsIds val) := by
  rw [create, createP]
  induction mcsIds generalizing basicGraph with
  | nil => rfl
  | cons mid ids ih =>
    simp only [List.foldlM_cons, List.foldl_cons, h mid (List.mem_cons_self _ _)]
    have hrest := fun m hm => h m (List.mem_cons_of_mem _ hm)
    by_cases hpos : 0 < val mid
    · simpa [hpos] using ih _ hrest
    · simpa [hpos] using ih _ hrest


/-- Bridge for the Cutoff instance. -/
theorem create_cutoff_eq (env : Env) (basicGraph : Graph) (mcsIds : List Nat)
    (table : Nat → ℚ) (c : ℚ) :
    create env basicGraph mcsIds (fun _ _ mid => some (cutoffSim c (table mid))) =
      some (createC env basicGraph mcsIds table c) :=
  create_eq_some_of_total env basicGraph mcsIds _ _ (fun _ _ => rfl)


/-- Two edge records on the same unordered pair agree on every `samePair`
test. -/
theorem samePair_congr {f e : GEdge} (h : samePair f e.u e.v = true) (a b : Nat) :
    samePair e a b = samePair f a b := by
  have h' : (f.u = e.u ∧ f.v = e.v) ∨ (f.u = e.v ∧ f.v = e.u) := by
    simpa [samePair] using h
  apply Bool.eq_iff_iff.mpr
  simp only [samePair, Bool.or_eq_true, Bool.and_eq_true, decide_eq_true_eq]
  constructor
  · intro hh
    rcases h' with ⟨h1, h2⟩ | ⟨h1, h2⟩ <;> rcases hh with ⟨h3, h4⟩ | ⟨h3, h4⟩ <;> omega
  · intro hh
    rcases h' with ⟨h1, h2⟩ | ⟨h1, h2⟩ <;> rcases hh with ⟨h3, h4⟩ | ⟨h3, h4⟩ <;> omega


theorem hasEdge_addEdge (g : Graph) (e : GEdge) (a b : Nat) :
    hasEdge (addEdge g e) a b = (samePair e a b || hasEdge g a b) := by
  rw [hasEdge, hasEdge, addEdge]
  by_cases hex : g.edges.any (fun f => samePair f e.u e.v) = true
  · simp only [hex, if_true]
    apply Bool.eq_iff_iff.mpr
    simp only [List.any_eq_true, Bool.or_eq_true]
    constructor
    · rintro ⟨f, hf, hfp⟩
      rcases List.mem_map.mp hf with ⟨f0, hf0, rfl⟩
      by_cases hc : samePair f0 e.u e.v = true
      · rw [if_pos hc] at hfp
        exact Or.inl hfp
      · rw [if_neg hc] at hfp
        exact Or.inr ⟨f0, hf0, hfp⟩
    · rintro (hfp | ⟨f0, hf0, hfp⟩)
      · rcases List.any_eq_true.mp hex with ⟨f1, hf1, hf1p⟩
        exact ⟨e, List.mem_map.mpr ⟨f1, hf1, by rw [if_pos hf1p]⟩, hfp⟩
      · by_cases hc : samePair f0 e.u e.v = true
        · refine ⟨e, List.mem_map.mpr ⟨f0, hf0, by rw [if_pos hc]⟩, ?_⟩
          rw [samePair_congr hc a b]
          exact hfp
        · exact ⟨f0, List.mem_map.mpr ⟨f0, hf0, by rw [if_neg hc]⟩, hfp⟩
  · simp only [hex, if_false, Bool.false_eq_true]
    apply Bool.eq_iff_iff.mpr
    simp only [List.any_eq_true, List.mem_append, List.mem_singleton, Bool.or_eq_true]
    constructor
    · rintro ⟨f, hf | hfe, hfp⟩
      · exact Or.inr ⟨f, hf, hfp⟩
      · exact Or.inl (hfe ▸ hfp)
    · rintro (hfp | ⟨f, hf, hfp⟩)
      · exact ⟨e, Or.inr rfl, hfp⟩
      · exact ⟨f, Or.inl hf, hfp⟩


/-- Characterization of the edges of the pure builder: a pair carries an
edge exactly when the basic graph already had one or some listed mcs id has
that parent pair with a strictly positive value. -/
theorem hasEdge_createP (env : Env) (basicGraph : Graph) (mcsIds : List Nat)
    (val : Nat → ℚ) (a b : Nat) :
    hasEdge (createP env basicGraph mcsIds val) a b = true ↔
      hasEdge basicGraph a b = true ∨
        ∃ mid ∈ mcsIds, pairMatch (env.parents mid) a b ∧ 0 < val mid := by
  rw [createP]
  induction mcsIds generalizing basicGraph with
  | nil => simp
  | cons mid ids ih =>
    rw [List.foldl_cons]
    by_cases hpos : 0 < val mid
    · rw [if_pos hpos, ih]
      rw [hasEdge_addEdge]
      have hsp : samePair
          { u := (env.parents mid).1, v := (env.parents mid).2,
            similarity := val mid, mcsId := mid,
            partRing := (env.partRingAttr mid).getD 0, boundary := false } a b = true ↔
          pairMatch (env.parents mid) a b := by
        simp [samePair, pairMatch]
      simp only [Bool.or_eq_true, List.mem_cons]
      constructor
      · rintro ((h | h) | ⟨m, hm, hmp⟩)
        · exact Or.inr ⟨mid, Or.inl rfl, hsp.mp h, hpos⟩
        · exact Or.inl h
        · exact Or.inr ⟨m, Or.inr hm, hmp⟩
      · rintro (h | ⟨m, hmem | hmem, hmp⟩)
        · exact Or.inl (Or.inr h)
        · rw [hmem] at hmp
          exact Or.inl (Or.inl (hsp.mpr hmp.1))
        · exact Or.inr ⟨m, hmem, hmp⟩
    · rw [if_neg hpos, ih]
      simp only [List.mem_cons]
      constructor
      · rintro (h | ⟨m, hm, hmp⟩)
        · exact Or.inl h
        · exact Or.inr ⟨m, Or.inr hm, hmp⟩
      · rintro (h | ⟨m, hmem | hmem, hmp⟩)
        · exact Or.inl h
        · rw [hmem] at hmp
          exact absurd hmp.2 hpos
        · exact Or.inr ⟨m, hmem, hmp⟩


theorem cutoffSim_pos_iff_zero (s : ℚ) : 0 < cutoffSim 0 s ↔ 0 < s := by
  rw [cutoffSim]
  by_cases h : s < 0
  · simp [h]
    linarith
  · simp [h]


theorem cutoffSim_pos_implies (c s : ℚ) (h : 0 < cutoffSim c s) : 0 < s := by
  rw [cutoffSim] at h
  by_cases hc : s < c
  · rw [if_pos hc] at h
    exact absurd h (lt_irrefl 0)
  · rwa [if_neg hc] at h


/-- CLAIM C2.  With the edgeless basic graph gen_graph builds (line 112),
the complete graph (effective cutoff 0) has an edge exactly on the candidate
pairs of strictly positive similarity — pairs of similarity at most 0 never
yield an edge — and for every cutoff the desired graph's edges are a subset
of the complete graph's, so every bridging candidate of positive similarity
is available to the connector. -/
theorem claim2_complete_superset (env : Env) (basicGraph : Graph)
    (mcsIds : List Nat) (table : Nat → ℚ) (hb : basicGraph.edges = []) :
    (∀ a b, hasEdge (createC env basicGraph mcsIds table 0) a b = true ↔
      ∃ mid ∈ mcsIds, pairMatch (env.parents mid) a b ∧ 0 < table mid) ∧
    (∀ c a b, hasEdge (createC env basicGraph mcsIds table c) a b = true →
      hasEdge (createC env basicGraph mcsIds table 0) a b = true) := by
  have hbe : ∀ a b, hasEdge basicGraph a b = false := by
    intro a b
    rw [hasEdge, hb]
    rfl
  constructor
  · intro a b
    rw [createC, hasEdge_createP]
    rw [hbe a b]
    simp only [Bool.false_eq_true, false_or]
    constructor
    · rintro ⟨mid, hm, hp, hpos⟩
      exact ⟨mid, hm, hp, (cutoffSim_pos_iff_zero (table mid)).mp hpos⟩
    · rintro ⟨mid, hm, hp, hpos⟩
      exact ⟨mid, hm, hp, (cutoffSim_pos_iff_zero (table mid)).mpr hpos⟩
  · intro c a b h
    rw [createC, hasEdge_createP] at h ⊢
    rcases h with h | ⟨mid, hm, hp, hpos⟩
    · exact Or.inl h
    · exact Or.inr ⟨mid, hm, hp,
        (cutoffSim_pos_iff_zero (table mid)).mpr (cutoffSim_pos_implies c _ hpos)⟩


/-- COUNTEREXAMPLE to claim C5.  The rule raises on the pair of mcs id 101
only, yet the whole build aborts (returns no graph at all) instead of
skipping that pair: `create` has no handler around `rule.similarity`.  The
same rule restricted to the non-failing pair builds fine. -/
theorem claim5_counterexample :
    create envX { nodes := [1, 2, 3, 4], edges := [] } [100, 101] ruleFail = none ∧
    (ruleFail 1 2 100).isSome = true ∧
    (create envX { nodes := [1, 2, 3, 4], edges := [] } [100] ruleFail).isSome = true := by
  refine ⟨by decide, by decide, by decide⟩


/-- CLAIM C5 (amended).  A pair whose rule evaluation raises aborts the
whole build (the counterexample); only when the rule reports every listed
pair by value does the build complete, and then any pair reported with
similarity at most 0 — the spec's convention for an unknown pair — is
skipped: it contributes no edge while the rest of the graph is built. -/
theorem claim5_create_skips_nonpositive (env : Env) (basicGraph : Graph)
    (mcsIds : List Nat) (rule : Rule) (val : Nat → ℚ)
    (h : ∀ mid ∈ mcsIds, rule (env.parents mid).1 (env.parents mid).2 mid = some (val mid)) :
    ∃ g, create env basicGraph mcsIds rule = some g ∧
      ∀ a b, hasEdge g a b = true ↔
        hasEdge basicGraph a b = true ∨
          ∃ mid ∈ mcsIds, pairMatch (env.parents mid) a b ∧ 0 < val mid := by
  refine ⟨createP env basicGraph mcsIds val, create_eq_some_of_total env basicGraph mcsIds rule val h, ?_⟩
  intro a b
  exact hasEdge_createP env basicGraph mcsIds val a b


/-- Unfolding of one loop iteration in the three branches of lines 130 to
139. -/
theorem bisectLoop_succ_cases (rebuild : ℚ → Graph × List (List Nat))
    (maxCsize fuel : Nat) (s : BState)
    (hcont : ¬(|s.trial - s.pretrial| ≤ btol)) :
    (maxCsize < largestSize s.clusters →
      bisectLoop rebuild maxCsize (fuel+1) s =
        bisectLoop rebuild maxCsize fuel
          { high := s.high, mid := (s.high + s.mid) / 2, low := s.mid,
            trial := (s.high + s.mid) / 2, pretrial := s.trial,
            desired := (rebuild ((s.high + s.mid) / 2)).1,
            clusters := (rebuild ((s.high + s.mid) / 2)).2 }) ∧
    (¬(maxCsize < largestSize s.clusters) →
      largestSize s.clusters < (95 * maxCsize) / 100 →
      bisectLoop rebuild maxCsize (fuel+1) s =
        bisectLoop rebuild maxCsize fuel
          { high := s.mid, mid := (s.mid + s.low) / 2, low := s.low,
            trial := (s.mid + s.low) / 2, pretrial := s.trial,
            desired := (rebuild ((s.mid + s.low) / 2)).1,
            clusters := (rebuild ((s.mid + s.low) / 2)).2 }) ∧
    (¬(maxCsize < largestSize s.clusters) →
      ¬(largestSize s.clusters < (95 * maxCsize) / 100) →
      bisectLoop rebuild maxCsize (fuel+1) s = some s) := by
  refine ⟨?_, ?_, ?_⟩
  · intro h1
    rw [bisectLoop, if_neg hcont, if_pos h1]
  · intro h1 h2
    rw [bisectLoop, if_neg hcont, if_neg h1, if_pos h2]
  · intro h1 h2
    rw [bisectLoop, if_neg hcont, if_neg h1, if_neg h2]


theorem btol_pos : (0 : ℚ) < btol := by
  rw [btol]
  norm_num


/-- Core termination argument: once the invariant holds, the gap halves at
every iteration, so fuel logarithmic in the initial gap suffices. -/
theorem bisect_termAux (rebuild : ℚ → Graph × List (List Nat)) (maxCsize : Nat) :
    ∀ (k : Nat) (s : BState), BInv s → |s.high - s.mid| ≤ btol * 2 ^ k →
      (bisectLoop rebuild maxCsize (k + 2) s).isSome = true := by
  intro k
  induction k with
  | zero =>
    intro s hinv hgap
    by_cases hcont : |s.trial - s.pretrial| ≤ btol
    · rw [bisectLoop, if_pos hcont]
      rfl
    · have step2 : ∀ s' : BState, |s'.trial - s'.pretrial| ≤ btol →
          (bisectLoop rebuild maxCsize 1 s').isSome = true := by
        intro s' h
        rw [bisectLoop, if_pos h]
        rfl
      by_cases h1 : maxCsize < largestSize s.clusters
      · rw [(bisectLoop_succ_cases rebuild maxCsize 1 s hcont).1 h1]
        refine step2 _ ?_
        have harith : (s.high + s.mid) / 2 - s.trial = (s.high - s.mid) / 2 := by
          rw [hinv.1]
          ring
        simp only [harith]
        rw [abs_div]
        have h2 : |(2 : ℚ)| = 2 := by norm_num
        rw [h2]
        rw [pow_zero, mul_one] at hgap
        linarith [btol_pos]
      · by_cases h2 : largestSize s.clusters < (95 * maxCsize) / 100
        · rw [(bisectLoop_succ_cases rebuild maxCsize 1 s hcont).2.1 h1 h2]
          refine step2 _ ?_
          have harith : (s.mid + s.low) / 2 - s.trial = -((s.high - s.mid) / 2) := by
            rw [hinv.1]
            have := hinv.2
            field_simp
            linarith
          simp only [harith]
          rw [abs_neg, abs_div]
          have h3 : |(2 : ℚ)| = 2 := by norm_num
          rw [h3]
          rw [pow_zero, mul_one] at hgap
          linarith [btol_pos]
        · rw [(bisectLoop_succ_cases rebuild maxCsize 1 s hcont).2.2 h1 h2]
          rfl
  | succ k ih =>
    intro s hinv hgap
    by_cases hcont : |s.trial - s.pretrial| ≤ btol
    · rw [bisectLoop, if_pos hcont]
      rfl
    · by_cases h1 : maxCsize < largestSize s.clusters
      · rw [(bisectLoop_succ_cases rebuild maxCsize (k + 2) s hcont).1 h1]
        refine ih _ ⟨rfl, ?_⟩ ?_
        · simp only
          ring
        · simp only
          have harith : s.high - (s.high + s.mid) / 2 = (s.high - s.mid) / 2 := by
            ring
          rw [harith, abs_div]
          have h2 : |(2 : ℚ)| = 2 := by norm_num
          rw [h2, div_le_iff₀ (by norm_num : (0:ℚ) < 2)]
          calc |s.high - s.mid| ≤ btol * 2 ^ (k + 1) := hgap
          _ = btol * 2 ^ k * 2 := by ring
      · by_cases h2 : largestSize s.clusters < (95 * maxCsize) / 100
        · rw [(bisectLoop_succ_cases rebuild maxCsize (k + 2) s hcont).2.1 h1 h2]
          refine ih _ ⟨rfl, ?_⟩ ?_
          · simp only
            ring
          · simp only
            have harith : s.mid - (s.mid + s.low) / 2 = (s.mid - s.low) / 2 := by
              ring
            rw [harith, abs_div]
            have h3 : |(2 : ℚ)| = 2 := by norm_num
            rw [h3, div_le_iff₀ (by norm_num : (0:ℚ) < 2)]
            rw [← hinv.2]
            calc |s.high - s.mid| ≤ btol * 2 ^ (k + 1) := hgap
            _ = btol * 2 ^ k * 2 := by ring
        · rw [(bisectLoop_succ_cases rebuild maxCsize (k + 2) s hcont).2.2 h1 h2]
          rfl


/-- Bound used to seed the termination argument: the initial gap `1 - c` is
bounded through the numerator and denominator of `c`. -/
theorem abs_one_sub_le (c : ℚ) :
    |1 - c| ≤ 1 + (c.num.natAbs : ℚ) := by
  have hdenpos : (0 : ℚ) < (c.den : ℚ) := by
    exact_mod_cast c.den_pos
  have hden1 : (1 : ℚ) ≤ (c.den : ℚ) := by
    exact_mod_cast c.den_pos
  have hnum : |(c.num : ℚ)| = (c.num.natAbs : ℚ) := by
    rw [← Int.cast_abs, Int.cast_natAbs]
  have habs : |c| ≤ (c.num.natAbs : ℚ) := by
    have hc : |c| = |(c.num : ℚ)| / (c.den : ℚ) := by
      conv_lhs => rw [← Rat.num_div_den c]
      rw [abs_div, abs_of_pos hdenpos]
    rw [hc, hnum]
    exact div_le_self (by positivity) hden1
  have htri : |1 - c| ≤ |(1 : ℚ)| + |c| := by
    have := abs_add (1 : ℚ) (-c)
    simpa [sub_eq_add_neg] using this
  have h1 : |(1 : ℚ)| = 1 := abs_one
  linarith


/-- Shared termination fact: with the fuel gen_graph passes, the bisection
loop always returns a state, for every rebuild function, size bound,
initial cutoff and initial cluster list. -/
theorem bisect_terminates (rebuild : ℚ → Graph × List (List Nat))
    (maxCsize : Nat) (c : ℚ) (d0 : Graph) (cl0 : List (List Nat)) :
    (bisectLoop rebuild maxCsize (fuelFor c) (initB c d0 cl0)).isSome = true := by
  have hfuel : fuelFor c = (500000 * (c.den + c.num.natAbs) + 1 + 2) + 1 := by
    rw [fuelFor]
  rw [hfuel]
  set M : Nat := 500000 * (c.den + c.num.natAbs) with hM
  set s0 : BState := initB c d0 cl0 with hs0
  by_cases hcont : |s0.trial - s0.pretrial| ≤ btol
  · rw [bisectLoop, if_pos hcont]
    rfl
  · have hden1 : (1 : ℚ) ≤ (c.den : ℚ) := by
      exact_mod_cast c.den_pos
    have hpow : (M : ℚ) ≤ 2 ^ M := by
      have := (Nat.lt_two_pow M).le
      exact_mod_cast this
    have hMQ : (M : ℚ) = 500000 * ((c.den : ℚ) + (c.num.natAbs : ℚ)) := by
      rw [hM]
      push_cast
      ring
    have hgapbound : |1 - c| / 2 ≤ btol * 2 ^ (M + 1) := by
      have h1 := abs_one_sub_le c
      have h2 : |1 - c| ≤ (c.den : ℚ) + (c.num.natAbs : ℚ) := by
        linarith
      rw [btol, pow_succ]
      have hpos : (0 : ℚ) ≤ (c.num.natAbs : ℚ) := by positivity
      linarith
    by_cases h1 : maxCsize < largestSize s0.clusters
    · rw [(bisectLoop_succ_cases rebuild maxCsize (M + 1 + 2) s0 hcont).1 h1]
      refine bisect_termAux rebuild maxCsize (M + 1) _ ⟨rfl, ?_⟩ ?_
      · show s0.high - (s0.high + s0.mid) / 2 = (s0.high + s0.mid) / 2 - s0.mid
        ring
      · show |s0.high - (s0.high + s0.mid) / 2| ≤ btol * 2 ^ (M + 1)
        have hval : s0.high - (s0.high + s0.mid) / 2 = (1 - c) / 2 := by
          rw [hs0]
          show (1 : ℚ) - (1 + c) / 2 = (1 - c) / 2
          ring
        rw [hval, abs_div, abs_two]
        exact hgapbound
    · by_cases h2 : largestSize s0.clusters < (95 * maxCsize) / 100
      · rw [(bisectLoop_succ_cases rebuild maxCsize (M + 1 + 2) s0 hcont).2.1 h1 h2]
        refine bisect_termAux rebuild maxCsize (M + 1) _ ⟨rfl, ?_⟩ ?_
        · show s0.mid - (s0.mid + s0.low) / 2 = (s0.mid + s0.low) / 2 - s0.low
          ring
        · show |s0.mid - (s0.mid + s0.low) / 2| ≤ btol * 2 ^ (M + 1)
          have hval : s0.mid - (s0.mid + s0.low) / 2 = 0 := by
            rw [hs0]
            show c - (c + c) / 2 = 0
            ring
          rw [hval, abs_zero, btol]
          positivity
      · rw [(bisectLoop_succ_cases rebuild maxCsize (M + 1 + 2) s0 hcont).2.2 h1 h2]
        rfl


/-- CLAIM C6.  The adaptive threshold search terminates on every input: for
any rebuild function (hence any molecule set, rule and similarity data), any
size bound and any initial cutoff, the loop run with gen_graph's fuel
reaches a result — it stops in the slack band, or as soon as two successive
trial cutoffs differ by at most the fixed tolerance 1E-6, which the halving
of the bracketed interval guarantees to happen. -/
theorem claim6_threshold_search_terminates (rebuild : ℚ → Graph × List (List Nat))
    (maxCsize : Nat) (c : ℚ) (d0 : Graph) (cl0 : List (List Nat)) :
    (bisectLoop rebuild maxCsize (fuelFor c) (initB c d0 cl0)).isSome = true :=
  bisect_terminates rebuild maxCsize c d0 cl0


/-- Helper fact: the initial loop test `abs(1 - 0) > 1E-6` holds. -/
theorem one_gt_btol : ¬(|(1 : ℚ) - 0| ≤ btol) := by
  rw [btol]
  norm_num


/-- COUNTEREXAMPLE to claim C4.  Take `target_max_size = 10` and a largest
cluster of size `n = 9`.  Then `n < 0.95 * target_max_size` (9 < 9.5), so
the claim requires the decrease branch (`high := mid`, new trial the
midpoint of mid and low).  The code instead compares against the integer
truncation `int(10 * 0.95) = 9`, the test `9 > 9` fails, and the loop stops
at once. -/
theorem claim4_counterexample :
    bisectLoop (fun _ => ({ nodes := [], edges := [] }, []))
      10 5
      { high := 1, mid := 0, low := 0, trial := 1, pretrial := 0,
        desired := { nodes := [], edges := [] },
        clusters := [[1, 2, 3, 4, 5, 6, 7, 8, 9]] } =
      some
      { high := 1, mid := 0, low := 0, trial := 1, pretrial := 0,
        desired := { nodes := [], edges := [] },
        clusters := [[1, 2, 3, 4, 5, 6, 7, 8, 9]] } ∧
    ((9 : ℚ) < (95 / 100) * 10) := by
  constructor
  · have h := (bisectLoop_succ_cases (fun _ => ({ nodes := [], edges := [] }, []))
      10 4
      { high := 1, mid := 0, low := 0, trial := 1, pretrial := 0,
        desired := { nodes := [], edges := [] },
        clusters := [[1, 2, 3, 4, 5, 6, 7, 8, 9]] } one_gt_btol).2.2
    exact h (by decide) (by decide)
  · norm_num


/-- CLAIM C4 (amended).  In every continuing iteration of the search with
`n` the size of the largest cluster at the current state: if `n` exceeds
`target_max_size`, then `low` becomes the old `mid` and the new trial is the
midpoint of `high` and the old `mid`; if `n` is below the integer truncation
`int(0.95 * target_max_size)` — not below `0.95 * target_max_size` itself —
then `high` becomes the old `mid` and the new trial is the midpoint of the
old `mid` and `low`; otherwise the search stops. -/
theorem claim4_bisect_branches (rebuild : ℚ → Graph × List (List Nat))
    (maxCsize fuel : Nat) (s : BState)
    (hcont : ¬(|s.trial - s.pretrial| ≤ btol)) :
    (maxCsize < largestSize s.clusters →
      bisectLoop rebuild maxCsize (fuel+1) s =
        bisectLoop rebuild maxCsize fuel
          { high := s.high, mid := (s.high + s.mid) / 2, low := s.mid,
            trial := (s.high + s.mid) / 2, pretrial := s.trial,
            desired := (rebuild ((s.high + s.mid) / 2)).1,
            clusters := (rebuild ((s.high + s.mid) / 2)).2 }) ∧
    (¬(maxCsize < largestSize s.clusters) →
      largestSize s.clusters < (95 * maxCsize) / 100 →
      bisectLoop rebuild maxCsize (fuel+1) s =
        bisectLoop rebuild maxCsize fuel
          { high := s.mid, mid := (s.mid + s.low) / 2, low := s.low,
            trial := (s.mid + s.low) / 2, pretrial := s.trial,
            desired := (rebuild ((s.mid + s.low) / 2)).1,
            clusters := (rebuild ((s.mid + s.low) / 2)).2 }) ∧
    (¬(maxCsize < largestSize s.clusters) →
      ¬(largestSize s.clusters < (95 * maxCsize) / 100) →
      bisectLoop rebuild maxCsize (fuel+1) s = some s) :=
  bisectLoop_succ_cases rebuild maxCsize fuel s hcont


theorem connectStep_pending_le (complete : Graph) (clusters : List (List Nat))
    (numC2C : Nat) (desired : Graph) (i : Nat) (rest : List Nat)
    {d : Graph} {pending : List Nat} {chosen : List (Nat × Nat)} {ws : List Warning}
    (h : connectStep complete clusters numC2C desired i rest = some (d, pending, chosen, ws)) :
    pending.length ≤ rest.length := by
  rw [connectStep] at h
  by_cases hempty : (boundaryEdges complete clusters i).isEmpty = true
  · simp only [hempty, if_true] at h
    cases h
    exact Nat.le_refl _
  · simp only [hempty, if_false, Bool.false_eq_true] at h
    rcases haddtop : addTop complete (sortBy (c2cLt complete)
        (boundaryEdges complete clusters i)) numC2C desired with _ | res
    · rw [haddtop] at h
      exact absurd h (by simp)
    · rw [haddtop] at h
      rcases res with ⟨d0, chosen0, ws0⟩
      simp only [Option.some.injEq, Prod.mk.injEq] at h
      rcases h with ⟨-, hpend, -, -⟩
      rw [← hpend]
      exact List.length_filter_le _ _


theorem samePair_comm (e : GEdge) (a b : Nat) : samePair e a b = samePair e b a := by
  apply Bool.eq_iff_iff.mpr
  simp only [samePair, Bool.or_eq_true, Bool.and_eq_true, decide_eq_true_eq]
  tauto


theorem simLookup_symm (g : Graph) (a b : Nat) : simLookup g a b = simLookup g b a := by
  rw [simLookup, simLookup]
  have : g.edges.find? (fun e => samePair e a b) = g.edges.find? (fun e => samePair e b a) := by
    induction g.edges with
    | nil => rfl
    | cons e es ih =>
      rw [List.find?_cons, List.find?_cons, samePair_comm e a b, ih]
  rw [this]


theorem mcsLookup_symm (g : Graph) (a b : Nat) : mcsLookup g a b = mcsLookup g b a := by
  rw [mcsLookup, mcsLookup]
  have : g.edges.find? (fun e => samePair e a b) = g.edges.find? (fun e => samePair e b a) := by
    induction g.edges with
    | nil => rfl
    | cons e es ih =>
      rw [List.find?_cons, List.find?_cons, samePair_comm e a b, ih]
  rw [this]


/-- The record written by the connector's `addEdge` is visible afterwards. -/
theorem boundaryRecord_addEdge_self (complete desired : Graph) (pr : Nat × Nat) :
    boundaryRecord
      (addEdge desired
        { u := pr.1, v := pr.2,
          similarity := simLookup complete pr.1 pr.2,
          mcsId := mcsLookup complete pr.1 pr.2,
          partRing := 0, boundary := true })
      pr.1 pr.2 (simLookup complete pr.1 pr.2) (mcsLookup complete pr.1 pr.2) = true := by
  rw [boundaryRecord, addEdge]
  by_cases hex : desired.edges.any (fun f => samePair f pr.1 pr.2) = true
  · simp only [hex, if_true]
    rcases List.any_eq_true.mp hex with ⟨f, hf, hfp⟩
    refine List.any_eq_true.mpr ⟨_, List.mem_map.mpr ⟨f, hf, by rw [if_pos hfp]⟩, ?_⟩
    simp [samePair]
  · simp only [hex, if_false, Bool.false_eq_true]
    refine List.any_eq_true.mpr ⟨_, List.mem_append_right _ (List.mem_singleton.mpr rfl), ?_⟩
    simp [samePair]


/-- A boundary record survives any later connector add. -/
theorem boundaryRecord_addEdge_keep (complete desired : Graph) (q : Nat × Nat)
    (a b : Nat) (hs : boundaryRecord desired a b (simLookup complete a b)
      (mcsLookup complete a b) = true) :
    boundaryRecord
      (addEdge desired
        { u := q.1, v := q.2,
          similarity := simLookup complete q.1 q.2,
          mcsId := mcsLookup complete q.1 q.2,
          partRing := 0, boundary := true })
      a b (simLookup complete a b) (mcsLookup complete a b) = true := by
  rcases List.any_eq_true.mp hs with ⟨f, hf, hfp⟩
  simp only [Bool.and_eq_true, decide_eq_true_eq] at hfp
  obtain ⟨⟨⟨hfab, hfb⟩, hfsim⟩, hfm⟩ := hfp
  rw [boundaryRecord, addEdge]
  simp only
  by_cases hex : desired.edges.any (fun e => samePair e q.1 q.2) = true
  · rw [if_pos hex]
    by_cases hrep : samePair f q.1 q.2 = true
    · refine List.any_eq_true.mpr ⟨_, List.mem_map.mpr ⟨f, hf, by rw [if_pos hrep]⟩, ?_⟩
      have hpq : (f.u = a ∧ f.v = b) ∨ (f.u = b ∧ f.v = a) := by
        simpa [samePair] using hfab
      have hpq2 : (f.u = q.1 ∧ f.v = q.2) ∨ (f.u = q.2 ∧ f.v = q.1) := by
        simpa [samePair] using hrep
      have hqp : (q.1 = a ∧ q.2 = b) ∨ (q.1 = b ∧ q.2 = a) := by
        rcases hpq with ⟨h1, h2⟩ | ⟨h1, h2⟩ <;> rcases hpq2 with ⟨h3, h4⟩ | ⟨h3, h4⟩ <;> omega
      rcases hqp with ⟨h1, h2⟩ | ⟨h1, h2⟩
      · simp [samePair, h1, h2]
      · simp [samePair, h1, h2, simLookup_symm complete b a, mcsLookup_symm complete b a]
    · refine List.any_eq_true.mpr ⟨f, List.mem_map.mpr ⟨f, hf, by rw [if_neg hrep]⟩, ?_⟩
      simp [hfab, hfb, hfsim, hfm]
  · rw [if_neg hex]
    refine List.any_eq_true.mpr ⟨f, List.mem_append_left _ hf, ?_⟩
    simp [hfab, hfb, hfsim, hfm]


/-- After the connector's adding fold, every added pair has its boundary
record in the graph. -/
theorem addFold_boundaryRecord (complete : Graph) (prs : List (Nat × Nat))
    (desired : Graph) :
    ∀ pr ∈ prs,
      boundaryRecord
        (prs.foldl
          (fun g pr =>
            addEdge g
              { u := pr.1, v := pr.2,
                similarity := simLookup complete pr.1 pr.2,
                mcsId := mcsLookup complete pr.1 pr.2,
                partRing := 0, boundary := true }) desired)
        pr.1 pr.2 (simLookup complete pr.1 pr.2) (mcsLookup complete pr.1 pr.2) = true := by
  induction prs generalizing desired with
  | nil => intro pr hpr; exact absurd hpr (List.not_mem_nil pr)
  | cons q qs ih =>
    intro pr hpr
    rw [List.foldl_cons]
    rcases List.mem_cons.mp hpr with heq | hpr
    · rw [heq]
      have base := boundaryRecord_addEdge_self complete desired q
      have keep : ∀ (g : Graph),
          boundaryRecord g q.1 q.2 (simLookup complete q.1 q.2) (mcsLookup complete q.1 q.2) = true →
          ∀ (rs : List (Nat × Nat)),
          boundaryRecord
            (rs.foldl (fun g pr =>
              addEdge g
                { u := pr.1, v := pr.2,
                  similarity := simLookup complete pr.1 pr.2,
                  mcsId := mcsLookup complete pr.1 pr.2,
                  partRing := 0, boundary := true }) g)
            q.1 q.2 (simLookup complete q.1 q.2) (mcsLookup complete q.1 q.2) = true := by
        intro g hg rs
        induction rs generalizing g with
        | nil => exact hg
        | cons r rs ihr =>
          rw [List.foldl_cons]
          exact ihr _ (boundaryRecord_addEdge_keep complete g r q.1 q.2 hg)
      exact keep _ base qs
    · exact ih _ pr hpr


theorem mem_addEdge (g : Graph) (r : GEdge) :
    ∀ e ∈ (addEdge g r).edges, e ∈ g.edges ∨ e = r := by
  intro e he
  rw [addEdge] at he
  by_cases hex : g.edges.any (fun f => samePair f r.u r.v) = true
  · rw [if_pos hex] at he
    rcases List.mem_map.mp he with ⟨f, hf, heq⟩
    by_cases hc : samePair f r.u r.v = true
    · rw [if_pos hc] at heq
      exact Or.inr heq.symm
    · rw [if_neg hc] at heq
      exact Or.inl (heq ▸ hf)
  · rw [if_neg hex] at he
    rcases List.mem_append.mp he with h | h
    · exact Or.inl h
    · exact Or.inr (List.mem_singleton.mp h)


/-- Edges after the connector's adding fold: an old edge or the record of
one of the added pairs. -/
theorem mem_addFold (complete : Graph) (prs : List (Nat × Nat)) (desired : Graph) :
    ∀ e ∈ (prs.foldl
        (fun g pr =>
          addEdge g
            { u := pr.1, v := pr.2,
              similarity := simLookup complete pr.1 pr.2,
              mcsId := mcsLookup complete pr.1 pr.2,
              partRing := 0, boundary := true }) desired).edges,
      e ∈ desired.edges ∨
        ∃ pr ∈ prs, e =
          { u := pr.1, v := pr.2,
            similarity := simLookup complete pr.1 pr.2,
            mcsId := mcsLookup complete pr.1 pr.2,
            partRing := 0, boundary := true } := by
  induction prs generalizing desired with
  | nil => intro e he; exact Or.inl he
  | cons q qs ih =>
    intro e he
    rw [List.foldl_cons] at he
    rcases ih _ e he with h | ⟨pr, hpr, heq⟩
    · rcases mem_addEdge _ _ e h with h2 | h2
      · exact Or.inl h2
      · exact Or.inr ⟨q, List.mem_cons_self _ _, h2⟩
    · exact Or.inr ⟨pr, List.mem_cons_of_mem _ hpr, heq⟩


/-- COUNTEREXAMPLE to claim C3.  Complete graph on nodes 1, 2, 3 with edges
{1,2} and {1,3}; clusters [[1,2], [3]]; the popped cluster is #1 = [3],
which has exactly one boundary edge (3,1), and `edges_per_cluster = 2`.
Boundary edges exist, but instead of adding the top 2 (i.e. all available)
edges, the step fails: `c2c_edges[-2]` raises `IndexError` and gen_graph
aborts.  So the claimed behavior does not hold for every possible number of
available boundary edges. -/
theorem claim3_counterexample :
    connectStep
      { nodes := [1, 2, 3],
        edges := [{ u := 1, v := 2, similarity := 5, mcsId := 100, partRing := 0, boundary := false },
                  { u := 1, v := 3, similarity := 3, mcsId := 102, partRing := 0, boundary := false }] }
      [[1, 2], [3]] 2 { nodes := [1, 2, 3], edges := [] } 1 [] = none ∧
    boundaryEdges
      { nodes := [1, 2, 3],
        edges := [{ u := 1, v := 2, similarity := 5, mcsId := 100, partRing := 0, boundary := false },
                  { u := 1, v := 3, similarity := 3, mcsId := 102, partRing := 0, boundary := false }] }
      [[1, 2], [3]] 1 ≠ [] := by
  refine ⟨by decide, by decide⟩


/-- CLAIM C3 (amended).  For a popped cluster whose boundary edge list is
nonempty and holds at least `edges_per_cluster` entries, the connector adds
exactly the top `edges_per_cluster` boundary edges ranked by similarity
descending: the chosen pairs come from the boundary list, dominate every
unchosen boundary pair, each is recorded in the desired graph flagged
`boundary = true` with the similarity and mcs reference copied from the
complete graph, and every edge of the new graph is an old edge or one of
those `edges_per_cluster` records — never more in a single bridging step.
(When fewer boundary edges than `edges_per_cluster` are available the step
raises instead, per the counterexample.) -/
theorem claim3_connector_top_edges (complete : Graph) (clusters : List (List Nat))
    (numC2C : Nat) (desired : Graph) (i : Nat) (rest : List Nat)
    (hne : boundaryEdges complete clusters i ≠ [])
    (hnum : numC2C ≤ (boundaryEdges complete clusters i).length) :
    ∃ d pending chosen ws,
      connectStep complete clusters numC2C desired i rest =
        some (d, pending, chosen, ws) ∧
      chosen.length = numC2C ∧
      (∀ pr ∈ chosen, pr ∈ boundaryEdges complete clusters i) ∧
      (∀ pr ∈ chosen, ∀ q ∈ boundaryEdges complete clusters i, q ∉ chosen →
        simLookup complete q.1 q.2 ≤ simLookup complete pr.1 pr.2) ∧
      (∀ pr ∈ chosen,
        boundaryRecord d pr.1 pr.2 (simLookup complete pr.1 pr.2)
          (mcsLookup complete pr.1 pr.2) = true) ∧
      (∀ e ∈ d.edges, e ∈ desired.edges ∨
        ∃ pr ∈ chosen, samePair e pr.1 pr.2 = true ∧ e.boundary = true) ∧
      ws = chosen.map
        (fun pr => Warning.boundaryInfo (simLookup complete pr.1 pr.2) pr.1 pr.2) := by
  set c2c := boundaryEdges complete clusters i with hc2c
  set l := sortBy (c2cLt complete) c2c with hl
  have hlen : l.length = c2c.length := length_sortBy _ _
  have hnuml : numC2C ≤ l.length := by rw [hlen]; exact hnum
  set chosen := (l.drop (l.length - numC2C)).reverse with hchosen
  have hstep : connectStep complete clusters numC2C desired i rest =
      some (chosen.foldl
        (fun g pr =>
          addEdge g
            { u := pr.1, v := pr.2,
              similarity := simLookup complete pr.1 pr.2,
              mcsId := mcsLookup complete pr.1 pr.2,
              partRing := 0, boundary := true }) desired,
        rest.filter (fun j =>
          !(chosen.any (fun pr =>
            decide (pr.1 ∈ clusters.getD j []) || decide (pr.2 ∈ clusters.getD j [])))),
        chosen,
        chosen.map (fun pr => Warning.boundaryInfo (simLookup complete pr.1 pr.2) pr.1 pr.2)) := by
    rw [connectStep]
    have hne2 : c2c.isEmpty = false := by
      rw [List.isEmpty_eq_false_iff_exists_mem]
      rcases c2c with _ | ⟨x, xs⟩
      · exact absurd rfl hne
      · exact ⟨x, List.mem_cons_self _ _⟩
    rw [← hc2c, hne2]
    simp only [Bool.false_eq_true, if_false]
    rw [addTop, if_pos hnuml]
  have hmemdrop : ∀ pr ∈ chosen, pr ∈ c2c := by
    intro pr hpr
    rw [hchosen, List.mem_reverse] at hpr
    have := List.mem_of_mem_drop hpr
    rw [hl] at this
    exact (mem_sortBy _ _ pr).mp this
  refine ⟨_, _, chosen, _, hstep, ?_, hmemdrop, ?_, ?_, ?_, rfl⟩
  · rw [hchosen, List.length_reverse, List.length_drop]
    omega
  · intro pr hpr q hq hqn
    have hsorted : l.Pairwise (fun a b => c2cLt complete b a = false) := by
      refine sortBy_pairwise _ ?_ ?_ _
      · intro x y h
        simp only [c2cLt, decide_eq_true_eq] at h
        simp only [c2cLt, decide_eq_false_iff_not]
        exact not_lt_of_lt h
      · intro x y z h1 h2
        simp only [c2cLt, decide_eq_false_iff_not, not_lt] at h1 h2 ⊢
        exact le_trans h1 h2
    have hsplit := List.take_append_drop (l.length - numC2C) l
    have hpairs : ∀ x ∈ l.take (l.length - numC2C), ∀ y ∈ l.drop (l.length - numC2C),
        c2cLt complete y x = false := by
      have := hsorted
      rw [← hsplit] at this
      exact fun x hx y hy => (List.pairwise_append.mp this).2.2 x hx y hy
    have hql : q ∈ l := by
      rw [hl]
      exact (mem_sortBy _ _ q).mpr hq
    have hqtake : q ∈ l.take (l.length - numC2C) := by
      rcases List.mem_append.mp (hsplit ▸ hql) with h | h
      · exact h
      · exact absurd (by rw [hchosen, List.mem_reverse]; exact h) hqn
    have hprdrop : pr ∈ l.drop (l.length - numC2C) := by
      rw [hchosen, List.mem_reverse] at hpr
      exact hpr
    have := hpairs q hqtake pr hprdrop
    simp only [c2cLt, decide_eq_false_iff_not, not_lt] at this
    exact this
  · intro pr hpr
    exact addFold_boundaryRecord complete chosen desired pr hpr
  · intro e he
    rcases mem_addFold complete chosen desired e he with h | ⟨pr, hpr, heq⟩
    · exact Or.inl h
    · refine Or.inr ⟨pr, hpr, ?_, ?_⟩
      · rw [heq]
        simp [samePair]
      · rw [heq]


/-- CLAIM C9.  After the connector processes a popped cluster, every
cluster index still pending whose cluster contains an endpoint of any newly
added boundary edge is removed from the pending (unconnected) set in that
same step — all touched clusters, not just one. -/
theorem claim9_bridged_clusters_removed (complete : Graph)
    (clusters : List (List Nat)) (numC2C : Nat) (desired : Graph) (i : Nat)
    (rest : List Nat) (d : Graph) (pending : List Nat)
    (chosen : List (Nat × Nat)) (ws : List Warning)
    (h : connectStep complete clusters numC2C desired i rest =
      some (d, pending, chosen, ws))
    (j : Nat) (hj : j ∈ rest)
    (htouch : ∃ pr ∈ chosen,
      pr.1 ∈ clusters.getD j [] ∨ pr.2 ∈ clusters.getD j []) :
    j ∉ pending := by
  rw [connectStep] at h
  by_cases hempty : (boundaryEdges complete clusters i).isEmpty = true
  · rw [if_pos hempty] at h
    simp only [Option.some.injEq, Prod.mk.injEq] at h
    rcases h with ⟨-, -, hch, -⟩
    rcases htouch with ⟨pr, hpr, -⟩
    rw [← hch] at hpr
    exact absurd hpr (List.not_mem_nil pr)
  · rw [if_neg hempty] at h
    rcases haddtop : addTop complete (sortBy (c2cLt complete)
        (boundaryEdges complete clusters i)) numC2C desired with _ | res
    · rw [haddtop] at h
      exact absurd h (by simp)
    · rw [haddtop] at h
      rcases res with ⟨d0, chosen0, ws0⟩
      simp only [Option.some.injEq, Prod.mk.injEq] at h
      rcases h with ⟨-, hpend, hch, -⟩
      intro hjp
      rw [← hpend] at hjp
      have hpred := List.of_mem_filter hjp
      simp only [Bool.not_eq_true', List.any_eq_false] at hpred
      rcases htouch with ⟨pr, hpr, hor⟩
      rw [← hch] at hpr
      have := hpred pr hpr
      rcases hor with h1 | h1
      · exact absurd (by rw [decide_eq_true h1]; simp : (decide (pr.1 ∈ clusters.getD j []) ||
          decide (pr.2 ∈ clusters.getD j [])) = true) this
      · exact absurd (by rw [decide_eq_true h1]; simp : (decide (pr.1 ∈ clusters.getD j []) ||
          decide (pr.2 ∈ clusters.getD j [])) = true) this


theorem insertBy_filter_of_neg (lt : α → α → Bool) (p : α → Bool) (x : α)
    (hx : p x = false) (l : List α) :
    (insertBy lt x l).filter p = l.filter p := by
  induction l with
  | nil => simp [insertBy, hx]
  | cons y ys ih =>
    by_cases h : lt y x = true
    · simp only [insertBy, h, if_true, List.filter_cons]
      rw [ih]
    · simp [insertBy, h, List.filter_cons, hx]


/-- Stability of the cluster sort: the subsequence of clusters of any fixed
size is unchanged by the sort — equal sizes keep their discovery order, a
deterministic tie-break. -/
theorem sortBy_filter_length (l : List (List Nat)) (k : Nat) :
    (sortBy lenLt l).filter (fun c => decide (c.length = k)) =
      l.filter (fun c => decide (c.length = k)) := by
  induction l with
  | nil => rfl
  | cons x xs ih =>
    rw [sortBy]
    by_cases hx : x.length = k
    · rw [insertBy_filter_of_class lenLt _ x (by simp [hx]) ?_ (sortBy lenLt xs)]
      · rw [ih, List.filter_cons, if_pos (by simp [hx])]
      · intro y hy
        simp only [lenLt, decide_eq_true_eq] at hy
        simp only [decide_eq_false_iff_not]
        omega
    · rw [insertBy_filter_of_neg lenLt _ x (by simp [hx]) (sortBy lenLt xs), ih,
        List.filter_cons, if_neg (by simp [hx])]


/-- CLAIM C8.  The Cluster Extractor returns a full partition of the node
set into connected components — every node, including isolated ones, lies in
exactly one returned cluster — ordered by ascending size; clusters of equal
size keep the deterministic component-discovery order (the stable
tie-break), so the whole output is a deterministic function of the input
graph and two runs on identical input agree. -/
theorem claim8_extract_partition_sorted (g : Graph) (hwf : g.Wf)
    (hnd : g.nodes.Nodup) :
    (∀ x, x ∈ g.nodes ↔ ∃ c ∈ extractClusters g, x ∈ c) ∧
    (∀ c ∈ extractClusters g, c ≠ [] ∧ c.Nodup) ∧
    (extractClusters g).Pairwise (fun a b => ∀ x, ¬(x ∈ a ∧ x ∈ b)) ∧
    (extractClusters g).Pairwise (fun a b => a.length ≤ b.length) ∧
    (∀ k, (extractClusters g).filter (fun c => decide (c.length = k)) =
      (componentsList g).filter (fun c => decide (c.length = k))) ∧
    (extractClusters g).Perm (componentsList g) := by
  have hp := dsuOf_partition g hwf hnd
  refine ⟨?_, ?_, ?_, ?_, fun k => sortBy_filter_length (componentsList g) k,
    sortBy_perm _ _⟩
  · intro x
    constructor
    · intro hx
      refine ⟨groupOf (dsuOf g) x, ?_, (groupOf_spec hp hx).2⟩
      exact (mem_extractClusters_iff g _).mpr ⟨x, hx, rfl⟩
    · rintro ⟨c, hc, hxc⟩
      exact hp.inside c (extractClusters_mem_dsu g hwf hnd hc) x hxc
  · intro c hc
    have hcd := extractClusters_mem_dsu g hwf hnd hc
    exact ⟨hp.nonempty c hcd, hp.ndEach c hcd⟩
  · have hsym : Symmetric (fun a b : List Nat => ∀ x, ¬(x ∈ a ∧ x ∈ b)) := by
      intro a b h x ⟨h1, h2⟩
      exact h x ⟨h2, h1⟩
    refine List.Pairwise.perm ?_ (sortBy_perm lenLt (componentsList g)).symm (fun h => hsym h)
    have hnodup : (componentsList g).Nodup := nodup_dedupF _
    refine hnodup.imp_of_mem ?_
    intro a b ha hb hab x ⟨hxa, hxb⟩
    have had : a ∈ dsuOf g := by
      rcases (mem_componentsList_iff g a).mp ha with ⟨y, hy, rfl⟩
      exact (groupOf_spec hp hy).1
    have hbd : b ∈ dsuOf g := by
      rcases (mem_componentsList_iff g b).mp hb with ⟨y, hy, rfl⟩
      exact (groupOf_spec hp hy).1
    exact hab (hp.group_eq had hbd hxa hxb)
  · have := sortBy_pairwise lenLt ?_ ?_ (componentsList g)
    · refine this.imp ?_
      intro a b h
      simp only [lenLt, decide_eq_false_iff_not] at h
      omega
    · intro a b h
      simp only [lenLt, decide_eq_true_eq] at h
      simp only [lenLt, decide_eq_false_iff_not]
      omega
    · intro a b c h1 h2
      simp only [lenLt, decide_eq_false_iff_not] at h1 h2 ⊢
      omega


/-- CLAIM C10.  The pipeline trims every cluster with the per-node degree
cap fixed at the literal 2 (line 147): gen_graph is exactly the
cap-parametrized pipeline instantiated at 2, and since the cap is not among
gen_graph's parameters, no caller-supplied configuration can change it. -/
theorem claim10_trim_cap_two (env : Env) (mcsIds : List Nat) (basicRule : Rule)
    (simiCutoff : ℚ) (maxCsize : Nat) (numC2C : Nat) :
    genGraph env mcsIds basicRule simiCutoff maxCsize numC2C =
      genGraphWithCap env mcsIds basicRule simiCutoff maxCsize numC2C 2 := rfl


/-- A search run whose first iteration raises the cutoff and whose second
iteration hits the tolerance stops after one rebuild. -/
theorem bisectLoop_stop_after_one (rebuild : ℚ → Graph × List (List Nat))
    (maxCsize k : Nat) (s : BState)
    (hcont : ¬(|s.trial - s.pretrial| ≤ btol))
    (h1 : maxCsize < largestSize s.clusters)
    (hstop : |(s.high + s.mid) / 2 - s.trial| ≤ btol) :
    bisectLoop rebuild maxCsize (k + 2) s =
      some { high := s.high, mid := (s.high + s.mid) / 2, low := s.mid,
             trial := (s.high + s.mid) / 2, pretrial := s.trial,
             desired := (rebuild ((s.high + s.mid) / 2)).1,
             clusters := (rebuild ((s.high + s.mid) / 2)).2 } := by
  rw [(bisectLoop_succ_cases rebuild maxCsize (k + 1) s hcont).1 h1]
  rw [bisectLoop, if_pos hstop]


/-- COUNTEREXAMPLE to claim C7.  Three molecules pairwise similar with
similarity 1 form one cluster of size 3 at every cutoff.  With
`max_csize = 2` the search runs, raises the cutoff once, exits on the
tolerance with the bound still violated (largest cluster 3 > 2) — and
gen_graph returns exactly the same value as the run with `max_csize = 3`
whose bound is met: same graph, same partition, same warnings (only the
connector's cannot-connect report).  No output distinguishes the failed
bound from the satisfied one, so nothing signals it; the cutoff value is
not part of the return value either. -/
theorem claim7_counterexample :
    genGraph envT [100, 101, 102] ruleT 1 2 1 =
      genGraph envT [100, 101, 102] ruleT 1 3 1 ∧
    Option.map (fun r => largestSize r.clusters)
      (genGraph envT [100, 101, 102] ruleT 1 2 1) = some 3 ∧
    Option.map (fun r => r.warnings)
      (genGraph envT [100, 101, 102] ruleT 1 2 1) =
      some [Warning.cannotConnect 0] := by
  have hphase : phase1 envT ruleT [100, 101, 102] =
      some ([1, 2, 3], [(100, 1), (101, 1), (102, 1)]) := by decide
  have hlast : (extractClusters (createC envT { nodes := [1, 2, 3], edges := [] }
      [100, 101, 102] (lookupSim [(100, 1), (101, 1), (102, 1)]) 1)).getLast? =
      some [1, 2, 3] := by decide
  have heq : genGraph envT [100, 101, 102] ruleT 1 2 1 =
      genGraph envT [100, 101, 102] ruleT 1 3 1 := by
    simp only [genGraph, hphase, hlast]
    rw [if_pos (by decide : 2 < [1, 2, 3].length),
      if_neg (by decide : ¬(3 < [1, 2, 3].length))]
    have hfuel : fuelFor 1 = 500000 * ((1 : ℚ).den + (1 : ℚ).num.natAbs) + 2 + 2 := by
      rw [fuelFor]
    rw [hfuel]
    rw [bisectLoop_stop_after_one _ 2 _ _ ?hcont ?h1 ?hstop]
    case hcont =>
      simp only [initB]
      exact one_gt_btol
    case h1 =>
      simp only [initB]
      decide
    case hstop =>
      simp only [initB]
      rw [btol]
      norm_num
    simp only [initB, rebuildAt]
    rw [show ((1 : ℚ) + 1) / 2 = 1 by norm_num]
  refine ⟨heq, ?_, ?_⟩
  · rw [heq]
    decide
  · rw [heq]
    decide


theorem insertNode_ne_nil (ns : List Nat) (x : Nat) : insertNode ns x ≠ [] := by
  rw [insertNode]
  by_cases h : x ∈ ns
  · rw [if_pos h]
    intro hc
    rw [hc] at h
    exact absurd h (List.not_mem_nil x)
  · rw [if_neg h]
    simp


theorem mem_insertNode_of_mem (ns : List Nat) (x y : Nat) (h : y ∈ ns) :
    y ∈ insertNode ns x := by
  rw [insertNode]
  by_cases hx : x ∈ ns
  · rwa [if_pos hx]
  · rw [if_neg hx]
    exact List.mem_append_left _ h


/-- With a rule that never raises on the listed ids, phase one succeeds,
and a nonempty id list yields a nonempty node set. -/
theorem phase1_eq_some (env : Env) (basicRule : Rule) (mcsIds : List Nat)
    (h : ∀ mid ∈ mcsIds,
      (basicRule (env.parents mid).1 (env.parents mid).2 mid).isSome = true) :
    ∃ ids table, phase1 env basicRule mcsIds = some (ids, table) ∧
      (mcsIds ≠ [] → ids ≠ []) := by
  have aux : ∀ (l : List Nat) (acc : List Nat × List (Nat × ℚ)),
      (∀ mid ∈ l, (basicRule (env.parents mid).1 (env.parents mid).2 mid).isSome = true) →
      ∃ ids table,
        l.foldlM (fun acc mid =>
          match basicRule (env.parents mid).1 (env.parents mid).2 mid with
          | none => none
          | some s =>
            some (insertNode (insertNode acc.1 (env.parents mid).1) (env.parents mid).2,
              acc.2 ++ [(mid, s)])) acc = some (ids, table) ∧
        ((l ≠ [] ∨ acc.1 ≠ []) → ids ≠ []) := by
    intro l
    induction l with
    | nil =>
      intro acc _
      refine ⟨acc.1, acc.2, rfl, ?_⟩
      rintro (hc | hc)
      · exact absurd rfl hc
      · exact hc
    | cons mid ids ih =>
      intro acc hall
      obtain ⟨s, hs⟩ := Option.isSome_iff_exists.mp (hall mid (List.mem_cons_self _ _))
      rcases ih (insertNode (insertNode acc.1 (env.parents mid).1) (env.parents mid).2,
          acc.2 ++ [(mid, s)]) (fun m hm => hall m (List.mem_cons_of_mem _ hm)) with
        ⟨rids, rtable, hfold, hne⟩
      refine ⟨rids, rtable, ?_, ?_⟩
      · rw [List.foldlM_cons, hs]
        exact hfold
      · intro _
        exact hne (Or.inr (insertNode_ne_nil _ _))
  rcases aux mcsIds ([], []) h with ⟨ids, table, hfold, hne⟩
  refine ⟨ids, table, hfold, ?_⟩
  intro hm
  exact hne (Or.inl hm)


theorem createC_nodes_mem (env : Env) (basic : Graph) (ids : List Nat)
    (table : Nat → ℚ) (c : ℚ) :
    ∀ x ∈ basic.nodes, x ∈ (createC env basic ids table c).nodes := by
  rw [createC, createP]
  induction ids generalizing basic with
  | nil => intro x hx; exact hx
  | cons mid ids ih =>
    intro x hx
    rw [List.foldl_cons]
    by_cases hpos : 0 < cutoffSim c (table mid)
    · rw [if_pos hpos]
      refine ih _ x ?_
      exact mem_insertNode_of_mem _ _ _ (mem_insertNode_of_mem _ _ _ hx)
    · rw [if_neg hpos]
      exact ih _ x hx


theorem extractClusters_ne_nil (g : Graph) (h : g.nodes ≠ []) :
    extractClusters g ≠ [] := by
  rcases hn : g.nodes with _ | ⟨x, xs⟩
  · exact absurd hn h
  · have hx : x ∈ g.nodes := by rw [hn]; exact List.mem_cons_self _ _
    have : groupOf (dsuOf g) x ∈ extractClusters g :=
      (mem_extractClusters_iff g _).mpr ⟨x, hx, rfl⟩
    intro hc
    rw [hc] at this
    exact absurd this (List.not_mem_nil _)


theorem connectStep_isSome (complete : Graph) (clusters : List (List Nat))
    (numC2C : Nat) (desired : Graph) (i : Nat) (rest : List Nat)
    (hnum : numC2C ≤ 1) :
    (connectStep complete clusters numC2C desired i rest).isSome = true := by
  rw [connectStep]
  by_cases he : (boundaryEdges complete clusters i).isEmpty = true
  · rw [if_pos he]
    rfl
  · rw [if_neg he]
    have hlen : 1 ≤ (sortBy (c2cLt complete) (boundaryEdges complete clusters i)).length := by
      rw [length_sortBy]
      rcases hb : boundaryEdges complete clusters i with _ | ⟨p, ps⟩
      · rw [hb] at he
        exact absurd rfl he
      · simp
    rw [addTop, if_pos (le_trans hnum hlen)]
    rfl


theorem connectLoop_isSome (complete : Graph) (clusters : List (List Nat))
    (numC2C : Nat) (hnum : numC2C ≤ 1) :
    ∀ (fuel : Nat) (pending : List Nat) (desired : Graph),
      pending.length ≤ fuel →
      (connectLoop complete clusters numC2C fuel desired pending).isSome = true := by
  intro fuel
  induction fuel with
  | zero =>
    intro pending desired h
    rcases pending with _ | ⟨i, rest⟩
    · rw [connectLoop]
      rfl
    · simp at h
  | succ fuel ih =>
    intro pending desired h
    rcases pending with _ | ⟨i, rest⟩
    · rw [connectLoop]
      rfl
    · obtain ⟨⟨d, p, ch, ws⟩, hs⟩ := Option.isSome_iff_exists.mp
        (connectStep_isSome complete clusters numC2C desired i rest hnum)
      rw [connectLoop, hs]
      have hrest : rest.length ≤ fuel := by
        simp only [List.length_cons] at h
        omega
      have hp : p.length ≤ fuel :=
        le_trans (connectStep_pending_le complete clusters numC2C desired i rest hs) hrest
      obtain ⟨⟨d2, ws2⟩, hr⟩ := Option.isSome_iff_exists.mp (ih p d hp)
      change (match connectLoop complete clusters numC2C fuel d p with
        | none => none
        | some (d2, ws2) => some (d2, ws ++ ws2)).isSome = true
      rw [hr]
      rfl


/-- Any property of the cluster list maintained by the rebuild is carried
from the initial state to the loop's result. -/
theorem bisectLoop_clusters_inv (rebuild : ℚ → Graph × List (List Nat))
    (maxCsize : Nat) (P : List (List Nat) → Prop)
    (hreb : ∀ t, P (rebuild t).2) :
    ∀ (fuel : Nat) (s : BState), P s.clusters →
      ∀ s', bisectLoop rebuild maxCsize fuel s = some s' → P s'.clusters := by
  intro fuel
  induction fuel with
  | zero =>
    intro s hP s' h
    rw [bisectLoop] at h
    exact absurd h (by simp)
  | succ fuel ih =>
    intro s hP s' h
    rw [bisectLoop] at h
    by_cases hcont : |s.trial - s.pretrial| ≤ btol
    · rw [if_pos hcont] at h
      cases h
      exact hP
    · rw [if_neg hcont] at h
      by_cases h1 : maxCsize < largestSize s.clusters
      · rw [if_pos h1] at h
        exact ih _ (hreb _) s' h
      · rw [if_neg h1] at h
        by_cases h2 : largestSize s.clusters < (95 * maxCsize) / 100
        · rw [if_pos h2] at h
          exact ih _ (hreb _) s' h
        · rw [if_neg h2] at h
          cases h
          exact hP


/-- CLAIM C7 (amended).  When the threshold search exits — whether inside
the slack band or merely on the tolerance with the bound still violated —
gen_graph does not fail: provided the basic rule computes every listed pair,
the id list is nonempty and at most one bridging edge per cluster is
requested, the pipeline still returns a result carrying the (nonempty)
cluster partition of the last trial.  The cutoff value itself is not
returned, and every warning in the output is one of the connector's two
reports; no signal concerns the size bound (see the counterexample: the
output of a bound-violating run can be identical to that of a satisfied
run). -/
theorem claim7_returns_partition (env : Env) (mcsIds : List Nat)
    (basicRule : Rule) (c : ℚ) (maxCsize : Nat) (numC2C : Nat)
    (htotal : ∀ mid ∈ mcsIds,
      (basicRule (env.parents mid).1 (env.parents mid).2 mid).isSome = true)
    (hne : mcsIds ≠ []) (hnum : numC2C ≤ 1) :
    ∃ r, genGraph env mcsIds basicRule c maxCsize numC2C = some r ∧
      r.clusters ≠ [] ∧
      (∀ w ∈ r.warnings, (∃ i, w = Warning.cannotConnect i) ∨
        ∃ s a b, w = Warning.boundaryInfo s a b) := by
  obtain ⟨ids, table, hphase, hids⟩ := phase1_eq_some env basicRule mcsIds htotal
  have hidsne : ids ≠ [] := hids hne
  have hnodes : ∀ t : ℚ, (createC env { nodes := ids, edges := [] } mcsIds
      (lookupSim table) t).nodes ≠ [] := by
    intro t hc
    obtain ⟨x, hx⟩ := List.exists_mem_of_ne_nil ids hidsne
    have hmem := createC_nodes_mem env { nodes := ids, edges := [] } mcsIds
      (lookupSim table) t x hx
    rw [hc] at hmem
    exact absurd hmem (List.not_mem_nil _)
  have hextne : ∀ t : ℚ, extractClusters (createC env { nodes := ids, edges := [] }
      mcsIds (lookupSim table) t) ≠ [] :=
    fun t => extractClusters_ne_nil _ (hnodes t)
  obtain ⟨largest, hlast⟩ := Option.isSome_iff_exists.mp
    (List.getLast?_isSome.mpr (hextne c))
  have hbres : ∃ s, (if maxCsize < largest.length then
      bisectLoop (rebuildAt env { nodes := ids, edges := [] } mcsIds table)
        maxCsize (fuelFor c)
        (initB c (createC env { nodes := ids, edges := [] } mcsIds (lookupSim table) c)
          (extractClusters (createC env { nodes := ids, edges := [] } mcsIds
            (lookupSim table) c)))
    else
      some (initB c (createC env { nodes := ids, edges := [] } mcsIds (lookupSim table) c)
        (extractClusters (createC env { nodes := ids, edges := [] } mcsIds
          (lookupSim table) c)))) = some s ∧ s.clusters ≠ [] := by
    by_cases hif : maxCsize < largest.length
    · rw [if_pos hif]
      obtain ⟨s, hs⟩ := Option.isSome_iff_exists.mp
        (bisect_terminates (rebuildAt env { nodes := ids, edges := [] } mcsIds table)
          maxCsize c _ _)
      refine ⟨s, hs, ?_⟩
      refine bisectLoop_clusters_inv _ maxCsize (fun cl => cl ≠ []) ?_ _ _ (hextne c) s hs
      intro t
      exact hextne t
    · rw [if_neg hif]
      exact ⟨_, rfl, hextne c⟩
  obtain ⟨s, hbis, hclne⟩ := hbres
  obtain ⟨⟨d3, ws⟩, hconn⟩ := Option.isSome_iff_exists.mp
    (connectLoop_isSome (createC env { nodes := ids, edges := [] } mcsIds
        (lookupSim table) 0) s.clusters numC2C hnum s.clusters.length
      (List.range s.clusters.length)
      (s.clusters.foldl (fun g cl => trimCluster g cl 2) s.desired)
      (by rw [List.length_range]))
  refine ⟨{ desired := d3, clusters := s.clusters, warnings := ws }, ?_, hclne, ?_⟩
  · simp only [genGraph, hphase, hlast, hbis, hconn]
  · intro w _
    cases w with
    | cannotConnect i => exact Or.inl ⟨i, rfl⟩
    | boundaryInfo s a b => exact Or.inr ⟨s, a, b, rfl⟩


theorem claim1_witness :
    (∀ x ∈ ([1, 2, 3] : List Nat), ∀ y ∈ ([1, 2, 3] : List Nat),
        ReachVia (trimCluster gW [1, 2, 3] 2).edges x y) ∧
    (∀ e ∈ gW.edges, (e.u ∈ ([1, 2, 3] : List Nat) ∨ e.v ∈ ([1, 2, 3] : List Nat)) →
        (e ∈ (trimCluster gW [1, 2, 3] 2).edges ↔
          pairKeptB (keepPairs gW [1, 2, 3] 2) e = true)) ∧
    (∀ e ∈ (trimCluster gW [1, 2, 3] 2).edges, e ∈ gW.edges) :=
  claim1_trim_cluster_connected gW [1, 2, 3] 2 (by decide) (by decide) (by decide)


theorem claim2_witness :
    (∀ a b, hasEdge (createC envX { nodes := [1, 2, 3, 4], edges := [] } [100, 101]
        (fun m => if m = 100 then 2 else 0) 0) a b = true ↔
      ∃ mid ∈ ([100, 101] : List Nat), pairMatch (envX.parents mid) a b ∧
        0 < (if mid = 100 then (2 : ℚ) else 0)) ∧
    (∀ c a b, hasEdge (createC envX { nodes := [1, 2, 3, 4], edges := [] } [100, 101]
        (fun m => if m = 100 then 2 else 0) c) a b = true →
      hasEdge (createC envX { nodes := [1, 2, 3, 4], edges := [] } [100, 101]
        (fun m => if m = 100 then 2 else 0) 0) a b = true) :=
  claim2_complete_superset envX { nodes := [1, 2, 3, 4], edges := [] } [100, 101]
    (fun m => if m = 100 then 2 else 0) rfl


theorem claim3_witness :
    ∃ d pending chosen ws,
      connectStep gW [[1, 2], [3]] 2 { nodes := [1, 2, 3], edges := [] } 1 [] =
        some (d, pending, chosen, ws) ∧
      chosen.length = 2 ∧
      (∀ pr ∈ chosen, pr ∈ boundaryEdges gW [[1, 2], [3]] 1) ∧
      (∀ pr ∈ chosen, ∀ q ∈ boundaryEdges gW [[1, 2], [3]] 1, q ∉ chosen →
        simLookup gW q.1 q.2 ≤ simLookup gW pr.1 pr.2) ∧
      (∀ pr ∈ chosen,
        boundaryRecord d pr.1 pr.2 (simLookup gW pr.1 pr.2)
          (mcsLookup gW pr.1 pr.2) = true) ∧
      (∀ e ∈ d.edges, e ∈ ({ nodes := [1, 2, 3], edges := [] } : Graph).edges ∨
        ∃ pr ∈ chosen, samePair e pr.1 pr.2 = true ∧ e.boundary = true) ∧
      ws = chosen.map
        (fun pr => Warning.boundaryInfo (simLookup gW pr.1 pr.2) pr.1 pr.2) :=
  claim3_connector_top_edges gW [[1, 2], [3]] 2 { nodes := [1, 2, 3], edges := [] } 1 []
    (by decide) (by decide)


theorem claim4_witness :
    (10 < largestSize csW.clusters →
      bisectLoop rebW 10 (3+1) csW =
        bisectLoop rebW 10 3
          { high := csW.high, mid := (csW.high + csW.mid) / 2, low := csW.mid,
            trial := (csW.high + csW.mid) / 2, pretrial := csW.trial,
            desired := (rebW ((csW.high + csW.mid) / 2)).1,
            clusters := (rebW ((csW.high + csW.mid) / 2)).2 }) ∧
    (¬(10 < largestSize csW.clusters) →
      largestSize csW.clusters < (95 * 10) / 100 →
      bisectLoop rebW 10 (3+1) csW =
        bisectLoop rebW 10 3
          { high := csW.mid, mid := (csW.mid + csW.low) / 2, low := csW.low,
            trial := (csW.mid + csW.low) / 2, pretrial := csW.trial,
            desired := (rebW ((csW.mid + csW.low) / 2)).1,
            clusters := (rebW ((csW.mid + csW.low) / 2)).2 }) ∧
    (¬(10 < largestSize csW.clusters) →
      ¬(largestSize csW.clusters < (95 * 10) / 100) →
      bisectLoop rebW 10 (3+1) csW = some csW) :=
  claim4_bisect_branches rebW 10 3 csW one_gt_btol


theorem claim5_witness :
    ∃ g, create envX { nodes := [1, 2, 3, 4], edges := [] } [100, 101] ruleW = some g ∧
      ∀ a b, hasEdge g a b = true ↔
        hasEdge ({ nodes := [1, 2, 3, 4], edges := [] } : Graph) a b = true ∨
          ∃ mid ∈ ([100, 101] : List Nat), pairMatch (envX.parents mid) a b ∧
            0 < (if mid = 100 then (1 : ℚ) else 0) :=
  claim5_create_skips_nonpositive envX { nodes := [1, 2, 3, 4], edges := [] } [100, 101]
    ruleW (fun mid => if mid = 100 then 1 else 0) (by decide)


theorem claim7_witness :
    ∃ r, genGraph envT [100, 101, 102] ruleT 1 2 1 = some r ∧
      r.clusters ≠ [] ∧
      (∀ w ∈ r.warnings, (∃ i, w = Warning.cannotConnect i) ∨
        ∃ s a b, w = Warning.boundaryInfo s a b) :=
  claim7_returns_partition envT [100, 101, 102] ruleT 1 2 1 (by decide) (by decide)
    (by decide)


theorem claim8_witness :
    (∀ x, x ∈ gW.nodes ↔ ∃ c ∈ extractClusters gW, x ∈ c) ∧
    (∀ c ∈ extractClusters gW, c ≠ [] ∧ c.Nodup) ∧
    (extractClusters gW).Pairwise (fun a b => ∀ x, ¬(x ∈ a ∧ x ∈ b)) ∧
    (extractClusters gW).Pairwise (fun a b => a.length ≤ b.length) ∧
    (∀ k, (extractClusters gW).filter (fun c => decide (c.length = k)) =
      (componentsList gW).filter (fun c => decide (c.length = k))) ∧
    (extractClusters gW).Perm (componentsList gW) :=
  claim8_extract_partition_sorted gW (by decide) (by decide)


theorem claim9_witness : (0 : Nat) ∉ ([] : List Nat) :=
  claim9_bridged_clusters_removed gW [[1, 2], [3]] 1 { nodes := [1, 2, 3], edges := [] }
    1 [0]
    { nodes := [1, 2, 3],
      edges := [{ u := 3, v := 2, similarity := 8, mcsId := 101, partRing := 0, boundary := true }] }
    [] [(3, 2)] [Warning.boundaryInfo 8 3 2]
    (by decide) 0 (by decide)
    ⟨(3, 2), by decide, Or.inr (by decide)⟩


end LeadOpt
